import Mathlib

/-!
Shallow embedding of `src/insar/timeseries.py` (SBAS time-series inversion).

Modelling conventions:
* Calendar dates are day ordinals in `ℤ`; `(d2 - d1)` is the number of days
  between two dates, exactly as `datetime.date` subtraction yields `.days`.
* numpy float arrays are modelled exactly over `ℚ` (2-D arrays as lists of
  rows, `Mat`); integer arrays over `ℤ`.
* `np.linalg.lstsq` is an external library routine; it enters as an abstract
  solver parameter `lstsq`, constrained where needed by the least-squares
  minimiser specification `IsLstsqSol`.
* File reading is modelled by passing the parsed file contents (lines,
  images) as arguments.
-/

namespace Insar

abbrev Mat := List (List ℚ)

/-- Model of `read_geolist` (timeseries.py lines 29-41).  The per-line
`Sentinel(geo).start_time().date()` extraction lives in `insar.parsers`,
which is not part of the sources; it is abstracted as `parse`.  Python's
`sorted` (a stable ascending sort) is modelled by `List.insertionSort`.
Note the source applies no de-duplication: one output date per input line. -/
def read_geolist (parse : String → ℤ) (lines : List String) : List ℤ :=
  List.insertionSort (· ≤ ·) (lines.map parse)

/-- Model of `find_time_diffs` (lines 104-113): `np.diff` over the date
list, taking `.days` of each difference. -/
def find_time_diffs (geolist : List ℤ) : List ℤ :=
  List.zipWith (fun a b => b - a) geolist geolist.tail

/-- One row of the SBAS A matrix, for one igram pair (body of the loop of
`build_A_matrix`, lines 86-99).  The row starts as zeros, `-1` is written at
the index of the early date when it occurs in the (reference-stripped) date
list, then `+1` at the index of the late date; a missing late date raises
`ValueError` in the source (`geolist.index`), modelled as `none`. -/
def buildARow (geolist : List ℤ) (pair : ℤ × ℤ) : Option (List ℤ) :=
  let row0 : List ℤ := List.replicate geolist.length 0
  let row1 := if pair.1 ∈ geolist then row0.set (geolist.indexOf pair.1) (-1) else row0
  if pair.2 ∈ geolist then some (row1.set (geolist.indexOf pair.2) 1) else none

/-- Model of `build_A_matrix` (lines 71-101): drops the first (reference)
date, then builds one row per igram; an uncaught `ValueError` on any row
aborts the whole call (`none`). -/
def build_A_matrix (geolist : List ℤ) (intlist : List (ℤ × ℤ)) : Option (List (List ℤ)) :=
  intlist.mapM (buildARow (geolist.drop 1))

/-- One row of the SBAS B matrix from the matching A row (body of the loop
of `build_B_matrix`, lines 133-143): `start_idx` is one past the index of
the `-1` entry (0 when the row has no `-1`), `end_idx` is one past the index
of the first `+1` entry (the source comment notes a `+1` always exists in
rows produced by `build_A_matrix`), and the slice assignment
`B[j][start_idx:end_idx] = timediffs[start_idx:end_idx]` leaves every other
entry zero. -/
def buildBRow (timediffs row : List ℤ) : List ℤ :=
  let start_idx := if (-1 : ℤ) ∈ row then row.indexOf (-1) + 1 else 0
  let end_idx := row.indexOf 1 + 1
  (List.range row.length).map fun i =>
    if start_idx ≤ i ∧ i < end_idx then timediffs.getD i 0 else 0

/-- Model of `build_B_matrix` (lines 116-145). -/
def build_B_matrix (geolist : List ℤ) (intlist : List (ℤ × ℤ)) : Option (List (List ℤ)) :=
  (build_A_matrix geolist intlist).map fun A => A.map (buildBRow (find_time_diffs geolist))

/-- Elementwise sum of two rows (numpy broadcast `+` on equal shapes). -/
def addRows (xs ys : List ℚ) : List ℚ := List.zipWith (· + ·) xs ys

/-- Running elementwise sums of a list of rows, continuing from `acc`. -/
def cumsumFrom (acc : List ℚ) : Mat → Mat
  | [] => []
  | r :: rs => addRows acc r :: cumsumFrom (addRows acc r) rs

/-- Model of `np.cumsum(_, axis=0)`: row i of the result is the elementwise
sum of input rows 0..i. -/
def cumsumRows : Mat → Mat
  | [] => []
  | r :: rs => r :: cumsumFrom r rs

/-- Model of `invert_sbas` (lines 213-243).  `lstsq` abstracts
`np.linalg.lstsq`; the result is already 2-D here (the source's
`expand_dims` for 1-D input realises the K = 1 column case of the same
batched contract).  `phi_diffs = timediffs.reshape((-1,1)) * velocity` is a
broadcast multiply of each velocity row by its time diff, `phi_arr` its
column-wise cumulative sum, and `np.insert(phi_arr, 0, 0, axis=0)` prepends
a zero row of the array's width. -/
def invert_sbas (lstsq : List (List ℤ) → Mat → Mat)
    (delta_phis : Mat) (timediffs : List ℤ) (B : List (List ℤ)) : Mat × Mat :=
  let velocity_array := lstsq B delta_phis
  let phi_diffs := List.zipWith (fun t row => row.map fun x => (t : ℚ) * x)
    timediffs velocity_array
  let phi_arr := cumsumRows phi_diffs
  (velocity_array, List.replicate (phi_arr.headD []).length 0 :: phi_arr)

/-- Sentinel radar wavelength in cm (line 23). -/
noncomputable def SENTINEL_WAVELENGTH : ℝ := 5.5465763

/-- Phase-to-centimetre conversion constant (line 24). -/
noncomputable def PHASE_TO_CM : ℝ := SENTINEL_WAVELENGTH / (-4 * Real.pi)

/-- The deformation step of `run_inversion` (line 290):
`deformation = PHASE_TO_CM * phi_arr`, an elementwise scale. -/
noncomputable def scale_deformation (phi_arr : Mat) : List (List ℝ) :=
  phi_arr.map fun row => row.map fun (x : ℚ) => PHASE_TO_CM * (x : ℝ)

/-- Model of numpy basic integer indexing into a list along one axis:
indices in `[0, len)` are taken directly, indices in `[-len, 0)` wrap
around from the end, anything else raises `IndexError` (`none`). -/
def npIdx {α : Type} (l : List α) (i : ℤ) : Option α :=
  if 0 ≤ i then (if i < (l.length : ℤ) then l[i.toNat]? else none)
  else (if -(l.length : ℤ) ≤ i then l[(i + l.length).toNat]? else none)

/-- Model of `read_unw_stack` (lines 148-189).  `rows`/`cols` come from the
`dem.rsc` metadata used to pre-allocate the stack; `images` is the list of
loaded `.unw` 2-D arrays, one per igram (file I/O via `insar.sario` is
external).  Each layer has its value at the reference pixel subtracted
(`cur_unw - cur_unw[ref_row, ref_col]`, numpy indexing semantics); an
`IndexError` on the reference lookup aborts the call (`none`).  The layers
are stacked along a trailing axis: result `[r][c][k]` holds layer k at
pixel (r, c). -/
def read_unw_stack (rows cols : Nat) (images : List (List (List ℚ)))
    (ref_row ref_col : ℤ) : Option (List (List (List ℚ))) := do
  let layers ← images.mapM fun img => do
    let refrow ← npIdx img ref_row
    let refval ← npIdx refrow ref_col
    pure (img.map fun ro => ro.map fun x => x - refval)
  pure ((List.range rows).map fun r => (List.range cols).map fun c =>
    layers.map fun layer => (layer.getD r []).getD c 0)

/-- Model of `_prep_columns` (lines 246-266): `stacked.T.reshape((M, -1))`.
For `stacked` of shape (rows, cols, M) the transpose has shape
(M, cols, rows), so after the row-major reshape, entry `[k][c*rows + r]` is
`stacked[r][c][k]`: each pixel's depth vector becomes one column. -/
def _prep_columns (stacked : List (List (List ℚ))) : Mat :=
  let rows := stacked.length
  let cols := (stacked.headD []).length
  let num_stacks := ((stacked.headD []).headD []).length
  (List.range num_stacks).map fun k =>
    (List.range cols).flatMap fun c =>
      (List.range rows).map fun r => ((stacked.getD r []).getD c []).getD k 0

/-- Model of `run_inversion` (lines 269-292).  The manifest contents
(`geolist`, `intlist`) and the image stack are passed already parsed; the
function normalises the stack, builds B and the time diffs, flattens the
pixel grid into columns, performs the single batched `invert_sbas` call,
scales phases to deformation, and returns the four results.  Note the
returned `phi_arr`/`deformation` keep the flattened pixel axis. -/
noncomputable def run_inversion (lstsq : List (List ℤ) → Mat → Mat) (rows cols : Nat)
    (images : List (List (List ℚ))) (geolist : List ℤ) (intlist : List (ℤ × ℤ))
    (ref_row ref_col : ℤ) :
    Option (List ℤ × Mat × List (List ℝ) × Mat) := do
  let unw_stack ← read_unw_stack rows cols images ref_row ref_col
  let B ← build_B_matrix geolist intlist
  let timediffs := find_time_diffs geolist
  let phi_columns := _prep_columns unw_stack
  let vp := invert_sbas lstsq phi_columns timediffs B
  pure (geolist, vp.2, scale_deformation vp.2, vp.1)

/-- Dot product of an integer matrix row with a rational vector. -/
def dotRow (row : List ℤ) (v : List ℚ) : ℚ :=
  (List.zipWith (fun a x => (a : ℚ) * x) row v).sum

/-- Matrix-vector product `B · v`. -/
def mulVec (B : List (List ℤ)) (v : List ℚ) : List ℚ := B.map fun row => dotRow row v

/-- Squared residual of candidate solution `v` for the system `B · v = d`. -/
def residSq (B : List (List ℤ)) (d v : List ℚ) : ℚ :=
  (List.zipWith (fun a b => (a - b) ^ 2) (mulVec B v) d).sum

/-- Column k of a matrix. -/
def colOf (M : Mat) (k : Nat) : List ℚ := M.map fun r => r.getD k 0

/-- Specification of `np.linalg.lstsq(B, dphis)` output `V`: it has one row
per column of `B`, one column per column of `dphis`, and each of its columns
minimises the squared residual of the corresponding column system.  (numpy
additionally breaks rank-deficient ties by minimum norm; none of the systems
used in concrete proofs below is rank-deficient, so the tie-break clause
is not needed to pin the solution down.) -/
def IsLstsqSol (B : List (List ℤ)) (dphis V : Mat) : Prop :=
  V.length = (B.headD []).length ∧
  (∀ r ∈ V, r.length = (dphis.headD []).length) ∧
  ∀ k < (dphis.headD []).length, ∀ w : List ℚ, w.length = V.length →
    residSq B (colOf dphis k) (colOf V k) ≤ residSq B (colOf dphis k) w

end Insar

namespace Insar

/-! Helper lemmas about list access, index search, option traversal and sums. -/

theorem getD_set_eq {α : Type} (l : List α) (j : Nat) (a : α) (i : Nat) (d : α) :
    (l.set j a).getD i d = if j = i ∧ j < l.length then a else l.getD i d := by
  rw [List.getD_eq_getElem?_getD, List.getElem?_set, List.getD_eq_getElem?_getD]
  by_cases hji : j = i
  · subst hji
    by_cases hlen : j < l.length
    · simp [hlen]
    · simp [hlen, List.getElem?_eq_none (le_of_not_lt hlen)]
  · simp [hji]

theorem getD_replicate_self {α : Type} (n : Nat) (a : α) (i : Nat) :
    (List.replicate n a).getD i a = a := by
  by_cases h : i < n
  · rw [List.getD_eq_getElem _ _ (by simpa using h)]
    exact List.getElem_replicate a _
  · rw [List.getD_eq_getElem?_getD, List.getElem?_eq_none (by simpa using le_of_not_lt h)]
    rfl

theorem getD_replicate_set (n t : Nat) (v : ℤ) (i : Nat) :
    ((List.replicate n (0 : ℤ)).set t v).getD i 0 = if i = t ∧ t < n then v else 0 := by
  rw [getD_set_eq]
  simp only [List.length_replicate]
  by_cases h : t = i
  · subst h
    by_cases hn : t < n
    · simp [hn]
    · simp [hn, getD_replicate_self]
  · have h2 : ¬(i = t ∧ t < n) := fun hh => h hh.1.symm
    have h3 : ¬(t = i ∧ t < n) := fun hh => h hh.1
    simp only [if_neg h2, if_neg h3]
    exact getD_replicate_self n 0 i

theorem getD_replicate_set_set (n s t : Nat) (u v : ℤ) (hs : s < n) (hst : s ≠ t) (i : Nat) :
    (((List.replicate n (0 : ℤ)).set s u).set t v).getD i 0 =
      if i = t ∧ t < n then v else if i = s then u else 0 := by
  rw [getD_set_eq]
  simp only [List.length_set, List.length_replicate]
  by_cases h : t = i
  · subst h
    by_cases hn : t < n
    · simp [hn]
    · have h2 : ¬(t = t ∧ t < n) := fun hh => hn hh.2
      rw [if_neg h2, if_neg h2, getD_replicate_set]
      by_cases hts : t = s
      · exact absurd hts.symm hst
      · have h4 : ¬(t = s ∧ s < n) := fun hh => hts hh.1
        simp [h4, hts]
  · have h2 : ¬(i = t ∧ t < n) := fun hh => h hh.1.symm
    have h3 : ¬(t = i ∧ t < n) := fun hh => h hh.1
    rw [if_neg h3, if_neg h2, getD_replicate_set]
    by_cases his : i = s
    · simp [his, hs]
    · have h4 : ¬(i = s ∧ s < n) := fun hh => his hh.1
      simp [h4, his]

theorem getD_map_range {α : Type} (N : Nat) (g : Nat → α) (d : α) (i : Nat) (h : i < N) :
    (((List.range N).map g)).getD i d = g i := by
  rw [List.getD_eq_getElem _ _ (by simpa using h), List.getElem_map, List.getElem_range]

theorem indexOf_eq_of_getD (l : List ℤ) (v : ℤ) (i : Nat) (hi : i < l.length)
    (hv : l.getD i 0 = v) (hfirst : ∀ j, j < i → l.getD j 0 ≠ v) : l.indexOf v = i := by
  induction l generalizing i with
  | nil => simp at hi
  | cons a l ih =>
    cases i with
    | zero =>
      simp only [List.getD_cons_zero] at hv
      simp [List.indexOf_cons, hv]
    | succ i =>
      have ha : a ≠ v := by
        have := hfirst 0 (Nat.succ_pos i)
        simpa using this
      rw [List.indexOf_cons]
      have hbeq : (a == v) = false := by simpa using ha
      rw [hbeq]
      simp only [cond_false]
      have := ih i (by simpa using hi) (by simpa using hv)
        (fun j hj => by simpa using hfirst (j + 1) (by omega))
      omega

theorem card_filter_eq_one_of (N t : Nat) (f : Nat → ℤ) (v : ℤ) (ht : t < N) (hval : f t = v)
    (hother : ∀ i, i ≠ t → f i ≠ v) :
    ((Finset.range N).filter fun i => f i = v).card = 1 := by
  have hset : (Finset.range N).filter (fun i => f i = v) = {t} := by
    ext i
    simp only [Finset.mem_filter, Finset.mem_range, Finset.mem_singleton]
    constructor
    · rintro ⟨_, hfi⟩
      by_contra hne
      exact hother i hne hfi
    · rintro rfl
      exact ⟨ht, hval⟩
  rw [hset, Finset.card_singleton]

theorem card_filter_eq_zero_of (N : Nat) (f : Nat → ℤ) (v : ℤ) (hno : ∀ i, i < N → f i ≠ v) :
    ((Finset.range N).filter fun i => f i = v).card = 0 := by
  rw [Finset.card_eq_zero, Finset.filter_eq_empty_iff]
  intro i hi
  exact hno i (Finset.mem_range.mp hi)

theorem mapM_option_spec {α β : Type} (f : α → Option β) (l : List α) (da : α) (db : β)
    (h : ∀ a ∈ l, (f a).isSome) :
    ∃ ys, l.mapM f = some ys ∧ ys.length = l.length ∧
      ∀ j, j < l.length → f (l.getD j da) = some (ys.getD j db) := by
  induction l with
  | nil => exact ⟨[], rfl, rfl, fun j hj => by simp at hj⟩
  | cons a l ih =>
    obtain ⟨b, hb⟩ := Option.isSome_iff_exists.mp (h a (List.mem_cons_self a l))
    obtain ⟨ys, hys, hlen, hidx⟩ := ih (fun x hx => h x (List.mem_cons_of_mem a hx))
    refine ⟨b :: ys, ?_, by simp [hlen], ?_⟩
    · rw [List.mapM_cons, hb, hys]
      rfl
    · intro j hj
      cases j with
      | zero => simpa using hb
      | succ j => simpa using hidx j (by simpa using hj)

theorem mapM_option_none {α β : Type} (f : α → Option β) (l : List α) (p : α)
    (hp : p ∈ l) (hnone : f p = none) : l.mapM f = none := by
  induction l with
  | nil => simp at hp
  | cons a l ih =>
    rw [List.mapM_cons]
    rcases List.mem_cons.mp hp with rfl | hmem
    · rw [hnone]; rfl
    · cases ha : f a
      · rfl
      · rw [ih hmem]
        rfl

theorem mapM_option_length {α β : Type} (f : α → Option β) (l : List α) (ys : List β)
    (h : l.mapM f = some ys) : ys.length = l.length := by
  induction l generalizing ys with
  | nil =>
    rw [List.mapM_nil] at h
    cases h
    rfl
  | cons a l ih =>
    rw [List.mapM_cons] at h
    cases ha : f a with
    | none => rw [ha] at h; cases h
    | some b =>
      rw [ha] at h
      cases hl : l.mapM f with
      | none => rw [hl] at h; cases h
      | some zs =>
        rw [hl] at h
        cases h
        simp [ih zs hl]

theorem sum_map_range (n : Nat) (f : Nat → ℤ) :
    ((List.range n).map f).sum = ∑ i ∈ Finset.range n, f i := by
  induction n with
  | zero => simp
  | succ n ih =>
    rw [List.range_succ, List.map_append, List.sum_append, Finset.sum_range_succ, ih]
    simp

theorem telescope_Ico (f : Nat → ℤ) (a b : Nat) (h : a ≤ b) :
    ∑ i ∈ Finset.Ico a b, (f (i + 1) - f i) = f b - f a := by
  induction b, h using Nat.le_induction with
  | base => simp
  | succ b hab ih =>
    rw [Finset.sum_Ico_succ_top hab, ih]
    ring

theorem find_time_diffs_length (D : List ℤ) :
    (find_time_diffs D).length = D.length - 1 := by
  simp [find_time_diffs, List.length_zipWith, List.length_tail]

theorem find_time_diffs_getD (D : List ℤ) (i : Nat) (h : i + 1 < D.length) :
    (find_time_diffs D).getD i 0 = D.getD (i + 1) 0 - D.getD i 0 := by
  have hlen : i < (find_time_diffs D).length := by
    rw [find_time_diffs_length]; omega
  rw [List.getD_eq_getElem _ _ hlen]
  unfold find_time_diffs
  rw [List.getElem_zipWith, List.getElem_tail]
  rw [List.getD_eq_getElem _ _ (by omega), List.getD_eq_getElem _ _ (by omega)]

theorem cumsumFrom_length (acc : List ℚ) (rows : Mat) :
    (cumsumFrom acc rows).length = rows.length := by
  induction rows generalizing acc with
  | nil => rfl
  | cons r rs ih => simp [cumsumFrom, ih]

theorem cumsumRows_length (rows : Mat) : (cumsumRows rows).length = rows.length := by
  cases rows with
  | nil => rfl
  | cons r rs => simp [cumsumRows, cumsumFrom_length]

theorem cumsumFrom_getD_succ (acc : List ℚ) (rows : Mat) (i : Nat)
    (h : i + 1 < rows.length) :
    (cumsumFrom acc rows).getD (i + 1) [] =
      addRows ((cumsumFrom acc rows).getD i []) (rows.getD (i + 1) []) := by
  induction rows generalizing acc i with
  | nil => simp at h
  | cons r rs ih =>
    cases i with
    | zero =>
      cases rs with
      | nil => simp at h
      | cons r2 rs2 => simp [cumsumFrom]
    | succ i =>
      have := ih (addRows acc r) i (by simpa using h)
      simpa [cumsumFrom] using this

theorem cumsumRows_getD_succ (rows : Mat) (i : Nat) (h : i + 1 < rows.length) :
    (cumsumRows rows).getD (i + 1) [] =
      addRows ((cumsumRows rows).getD i []) (rows.getD (i + 1) []) := by
  cases rows with
  | nil => simp at h
  | cons r rs =>
    cases i with
    | zero =>
      cases rs with
      | nil => simp at h
      | cons r2 rs2 => simp [cumsumRows, cumsumFrom]
    | succ i =>
      have := cumsumFrom_getD_succ r rs i (by simpa using h)
      simpa [cumsumRows] using this

theorem addRows_getD (xs ys : List ℚ) (k : Nat) (hx : k < xs.length) (hy : k < ys.length) :
    (addRows xs ys).getD k 0 = xs.getD k 0 + ys.getD k 0 := by
  unfold addRows
  rw [List.getD_eq_getElem _ _ (by simp [List.length_zipWith]; omega), List.getElem_zipWith,
    List.getD_eq_getElem _ _ hx, List.getD_eq_getElem _ _ hy]

theorem residSq_nonneg (B : List (List ℤ)) (d v : List ℚ) : 0 ≤ residSq B d v := by
  unfold residSq mulVec
  induction B generalizing d with
  | nil => simp
  | cons row B ih =>
    cases d with
    | nil => simp
    | cons x d =>
      simp only [List.map_cons, List.zipWith_cons_cons, List.sum_cons]
      have h1 : (0 : ℚ) ≤ (dotRow row v - x) ^ 2 := sq_nonneg _
      have h2 := ih d
      linarith

theorem npIdx_eq_getElem {α : Type} (l : List α) (i : ℤ) (h0 : 0 ≤ i)
    (hlt : i < (l.length : ℤ)) :
    ∃ h : i.toNat < l.length, npIdx l i = some (l[i.toNat]) := by
  have hn : i.toNat < l.length := by omega
  refine ⟨hn, ?_⟩
  simp only [npIdx, if_pos h0, if_pos hlt]
  exact List.getElem?_eq_getElem hn

theorem npIdx_neg_wrap {α : Type} (l : List α) (i : ℤ) (hneg : i < 0)
    (hge : -(l.length : ℤ) ≤ i) :
    npIdx l i = npIdx l (i + l.length) := by
  have h1 : ¬(0 : ℤ) ≤ i := by omega
  have h2 : (0 : ℤ) ≤ i + l.length := by omega
  have h3 : i + (l.length : ℤ) < l.length := by omega
  simp only [npIdx, if_neg h1, if_pos hge, if_pos h2, if_pos h3]

theorem npIdx_isSome_iff {α : Type} (l : List α) (i : ℤ) :
    (npIdx l i).isSome ↔ (-(l.length : ℤ) ≤ i ∧ i < l.length) := by
  unfold npIdx
  by_cases h0 : (0 : ℤ) ≤ i
  · by_cases hlt : i < (l.length : ℤ)
    · obtain ⟨hn, -⟩ : ∃ _ : i.toNat < l.length, True := ⟨by omega, trivial⟩
      simp only [if_pos h0, if_pos hlt, List.getElem?_eq_getElem hn, Option.isSome_some]
      constructor
      · intro
        exact ⟨by omega, hlt⟩
      · intro
        trivial
    · simp only [if_pos h0, if_neg hlt, Option.isSome_none]
      constructor
      · intro hh
        exact absurd hh (by simp)
      · rintro ⟨-, hc⟩
        exact absurd hc hlt
  · by_cases hge : -(l.length : ℤ) ≤ i
    · have h2 : (i + (l.length : ℤ)).toNat < l.length := by omega
      simp only [if_neg h0, if_pos hge, List.getElem?_eq_getElem h2, Option.isSome_some]
      constructor
      · intro
        exact ⟨hge, by omega⟩
      · intro
        trivial
    · simp only [if_neg h0, if_neg hge, Option.isSome_none]
      constructor
      · intro hh
        exact absurd hh (by simp)
      · rintro ⟨hc, -⟩
        exact absurd hc hge

theorem npIdx_mem {α : Type} (l : List α) (i : ℤ) (x : α) (h : npIdx l i = some x) :
    x ∈ l := by
  unfold npIdx at h
  by_cases h0 : (0 : ℤ) ≤ i
  · rw [if_pos h0] at h
    by_cases hlt : i < (l.length : ℤ)
    · rw [if_pos hlt] at h
      exact List.getElem?_mem h
    · rw [if_neg hlt] at h
      cases h
  · rw [if_neg h0] at h
    by_cases hge : -(l.length : ℤ) ≤ i
    · rw [if_pos hge] at h
      exact List.getElem?_mem h
    · rw [if_neg hge] at h
      cases h

/-! Characterisation of the rows produced by `buildARow`. -/

theorem buildARow_some_of_mem (geos : List ℤ) (p : ℤ × ℤ) (hE : p.1 ∈ geos)
    (hL : p.2 ∈ geos) :
    buildARow geos p =
      some (((List.replicate geos.length 0).set (geos.indexOf p.1) (-1)).set
        (geos.indexOf p.2) 1) := by
  simp [buildARow, hE, hL]

theorem buildARow_some_of_not_mem (geos : List ℤ) (p : ℤ × ℤ) (hE : p.1 ∉ geos)
    (hL : p.2 ∈ geos) :
    buildARow geos p =
      some ((List.replicate geos.length 0).set (geos.indexOf p.2) 1) := by
  simp [buildARow, hE, hL]

theorem buildARow_none (geos : List ℤ) (p : ℤ × ℤ) (hL : p.2 ∉ geos) :
    buildARow geos p = none := by
  simp [buildARow, hL]

theorem buildARow_isSome (geos : List ℤ) (p : ℤ × ℤ) (hL : p.2 ∈ geos) :
    (buildARow geos p).isSome := by
  by_cases hE : p.1 ∈ geos
  · rw [buildARow_some_of_mem geos p hE hL]; rfl
  · rw [buildARow_some_of_not_mem geos p hE hL]; rfl

theorem indexOf_ne_of_mem_ne (geos : List ℤ) (a b : ℤ) (ha : a ∈ geos) (hb : b ∈ geos)
    (hab : a ≠ b) : geos.indexOf a ≠ geos.indexOf b := by
  intro heq
  have hla : geos.indexOf a < geos.length := List.indexOf_lt_length.mpr ha
  have hlb : geos.indexOf b < geos.length := List.indexOf_lt_length.mpr hb
  have h1 : geos.getD (geos.indexOf a) 0 = a := by
    rw [List.getD_eq_getElem _ _ hla]
    exact List.getElem_indexOf hla
  have h2 : geos.getD (geos.indexOf b) 0 = b := by
    rw [List.getD_eq_getElem _ _ hlb]
    exact List.getElem_indexOf hlb
  rw [heq] at h1
  exact hab (h1.symm.trans h2)

/-- Entry characterisation of an A row whose early date occurs in the
reference-stripped date list. -/
theorem aRow_getD_of_mem (geos : List ℤ) (p : ℤ × ℤ) (hE : p.1 ∈ geos) (hL : p.2 ∈ geos)
    (hne : p.1 ≠ p.2) (i : Nat) :
    (((List.replicate geos.length 0).set (geos.indexOf p.1) (-1)).set
        (geos.indexOf p.2) 1).getD i 0 =
      if i = geos.indexOf p.2 then 1 else if i = geos.indexOf p.1 then -1 else 0 := by
  have hsE : geos.indexOf p.1 < geos.length := List.indexOf_lt_length.mpr hE
  have hsL : geos.indexOf p.2 < geos.length := List.indexOf_lt_length.mpr hL
  have hEL := indexOf_ne_of_mem_ne geos p.1 p.2 hE hL hne
  rw [getD_replicate_set_set geos.length _ _ _ _ hsE hEL i]
  by_cases h2 : i = geos.indexOf p.2
  · simp [h2, hsL]
  · have h4 : ¬(i = geos.indexOf p.2 ∧ geos.indexOf p.2 < geos.length) := fun hh => h2 hh.1
    simp [h4, h2]

/-- Entry characterisation of an A row whose early date is the reference
date (absent from the stripped list). -/
theorem aRow_getD_of_not_mem (geos : List ℤ) (p : ℤ × ℤ) (hL : p.2 ∈ geos) (i : Nat) :
    ((List.replicate geos.length (0 : ℤ)).set (geos.indexOf p.2) 1).getD i 0 =
      if i = geos.indexOf p.2 then 1 else 0 := by
  have hsL : geos.indexOf p.2 < geos.length := List.indexOf_lt_length.mpr hL
  rw [getD_replicate_set geos.length (geos.indexOf p.2) 1 i]
  by_cases h2 : i = geos.indexOf p.2
  · simp [h2, hsL]
  · have h4 : ¬(i = geos.indexOf p.2 ∧ geos.indexOf p.2 < geos.length) := fun hh => h2 hh.1
    simp [h4, h2]

/-- In a sorted-strictly-ascending date list, the late date of a valid pair
always occurs after position 0, and the early date is the head exactly when
it is missing from the tail. -/
theorem early_late_dichotomy (D : List ℤ) (p : ℤ × ℤ) (hsort : D.Pairwise (· < ·))
    (h1 : p.1 ∈ D) (h2 : p.2 ∈ D) (hlt : p.1 < p.2) :
    p.2 ∈ D.drop 1 ∧ (p.1 = D.getD 0 0 ↔ p.1 ∉ D.drop 1) := by
  cases D with
  | nil => simp at h1
  | cons d rest =>
    have hd : ∀ x ∈ rest, d < x := (List.pairwise_cons.mp hsort).1
    constructor
    · rcases List.mem_cons.mp h2 with hh | hh
      · exfalso
        rcases List.mem_cons.mp h1 with h1h | h1h
        · omega
        · have := hd p.1 h1h
          omega
      · simpa using hh
    · constructor
      · intro heq hmem
        simp only [List.getD_cons_zero] at heq
        have := hd p.1 (by simpa using hmem)
        omega
      · intro hnmem
        rcases List.mem_cons.mp h1 with h1h | h1h
        · simpa using h1h
        · exact absurd (by simpa using h1h) hnmem

/-- C2: for every strictly-ascending (hence unique) date list D of length at
least 2 and every pair list whose pairs have both dates in D with the early
date strictly before the late date, every row of `build_A_matrix D P` has
exactly one entry +1 and exactly one entry -1 with all other entries 0,
except rows whose early date is the reference date D[0], which have exactly
one +1, no -1, and all other entries 0.  Entry counts are phrased as the
number of column indices holding the value. -/
theorem build_A_matrix_row_pattern (D : List ℤ) (P : List (ℤ × ℤ))
    (hsort : D.Pairwise (· < ·)) (hlen : 2 ≤ D.length)
    (hP : ∀ p ∈ P, p.1 ∈ D ∧ p.2 ∈ D ∧ p.1 < p.2) :
    ∃ A, build_A_matrix D P = some A ∧ A.length = P.length ∧
      ∀ j, j < P.length →
        (((Finset.range (D.length - 1)).filter
            fun i => (A.getD j []).getD i 0 = 1).card = 1) ∧
        ((P.getD j (0, 0)).1 ≠ D.getD 0 0 →
          ((Finset.range (D.length - 1)).filter
            fun i => (A.getD j []).getD i 0 = -1).card = 1) ∧
        ((P.getD j (0, 0)).1 = D.getD 0 0 →
          ((Finset.range (D.length - 1)).filter
            fun i => (A.getD j []).getD i 0 = -1).card = 0) ∧
        (∀ i, i < D.length - 1 →
          (A.getD j []).getD i 0 = -1 ∨ (A.getD j []).getD i 0 = 1 ∨
            (A.getD j []).getD i 0 = 0) := by
  have hglen : (D.drop 1).length = D.length - 1 := by simp [List.length_drop]
  have hsome : ∀ p ∈ P, (buildARow (D.drop 1) p).isSome := by
    intro p hp
    obtain ⟨h1, h2, hlt⟩ := hP p hp
    exact buildARow_isSome _ p (early_late_dichotomy D p hsort h1 h2 hlt).1
  obtain ⟨A, hA, hAlen, hAidx⟩ := mapM_option_spec (buildARow (D.drop 1)) P (0, 0) [] hsome
  refine ⟨A, hA, hAlen, ?_⟩
  intro j hj
  have hpmem : P.getD j (0, 0) ∈ P := by
    rw [List.getD_eq_getElem _ _ hj]
    exact List.getElem_mem hj
  obtain ⟨h1, h2, hlt⟩ := hP _ hpmem
  obtain ⟨hlat, hdich⟩ := early_late_dichotomy D _ hsort h1 h2 hlt
  have hrow := hAidx j hj
  have hne : (P.getD j (0, 0)).1 ≠ (P.getD j (0, 0)).2 := ne_of_lt hlt
  have hsL : (D.drop 1).indexOf (P.getD j (0, 0)).2 < (D.drop 1).length :=
    List.indexOf_lt_length.mpr hlat
  by_cases hE : (P.getD j (0, 0)).1 ∈ D.drop 1
  · rw [buildARow_some_of_mem _ _ hE hlat] at hrow
    have hval : ∀ i, (A.getD j []).getD i 0 =
        if i = (D.drop 1).indexOf (P.getD j (0, 0)).2 then 1
        else if i = (D.drop 1).indexOf (P.getD j (0, 0)).1 then -1 else 0 := by
      intro i
      rw [← Option.some_inj.mp hrow]
      exact aRow_getD_of_mem _ _ hE hlat hne i
    have hsE : (D.drop 1).indexOf (P.getD j (0, 0)).1 < (D.drop 1).length :=
      List.indexOf_lt_length.mpr hE
    have hEL := indexOf_ne_of_mem_ne (D.drop 1) _ _ hE hlat hne
    refine ⟨?_, fun _ => ?_, fun href => ?_, ?_⟩
    · refine card_filter_eq_one_of _ ((D.drop 1).indexOf (P.getD j (0, 0)).2) _ 1
        (by omega) ?_ ?_
      · rw [hval, if_pos rfl]
      · intro i hi
        rw [hval, if_neg hi]
        by_cases hiE : i = (D.drop 1).indexOf (P.getD j (0, 0)).1
        · rw [if_pos hiE]; decide
        · rw [if_neg hiE]; decide
    · refine card_filter_eq_one_of _ ((D.drop 1).indexOf (P.getD j (0, 0)).1) _ (-1)
        (by omega) ?_ ?_
      · rw [hval, if_neg hEL, if_pos rfl]
      · intro i hi
        rw [hval]
        by_cases hiL : i = (D.drop 1).indexOf (P.getD j (0, 0)).2
        · rw [if_pos hiL]; decide
        · rw [if_neg hiL, if_neg hi]; decide
    · exact absurd hE (hdich.mp href)
    · intro i _
      rw [hval]
      split_ifs
      · right
        left
        rfl
      · left
        rfl
      · right
        right
        rfl
  · rw [buildARow_some_of_not_mem _ _ hE hlat] at hrow
    have hval : ∀ i, (A.getD j []).getD i 0 =
        if i = (D.drop 1).indexOf (P.getD j (0, 0)).2 then 1 else 0 := by
      intro i
      rw [← Option.some_inj.mp hrow]
      exact aRow_getD_of_not_mem _ _ hlat i
    refine ⟨?_, fun hnref => ?_, fun _ => ?_, ?_⟩
    · refine card_filter_eq_one_of _ ((D.drop 1).indexOf (P.getD j (0, 0)).2) _ 1
        (by omega) ?_ ?_
      · rw [hval, if_pos rfl]
      · intro i hi
        rw [hval, if_neg hi]
        decide
    · exact absurd (hdich.mpr hE) hnref
    · refine card_filter_eq_zero_of _ _ (-1) ?_
      intro i _
      rw [hval]
      by_cases hiL : i = (D.drop 1).indexOf (P.getD j (0, 0)).2
      · rw [if_pos hiL]; decide
      · rw [if_neg hiL]; decide
    · intro i _
      rw [hval]
      split_ifs
      · right
        left
        rfl
      · right
        right
        rfl

/-- Witness for C2 on the concrete test scenario of the repository (dates
as day offsets from 2018-04-20). -/
theorem build_A_matrix_row_pattern_witness :
    ∃ A, build_A_matrix [0, 2, 8, 12] [(0, 2), (2, 8)] = some A ∧ A.length = 2 ∧
      ∀ j, j < 2 →
        (((Finset.range 3).filter
            fun i => (A.getD j []).getD i 0 = 1).card = 1) ∧
        (([(0, 2), (2, 8)].getD j ((0 : ℤ), (0 : ℤ))).1 ≠ 0 →
          ((Finset.range 3).filter
            fun i => (A.getD j []).getD i 0 = -1).card = 1) ∧
        (([(0, 2), (2, 8)].getD j ((0 : ℤ), (0 : ℤ))).1 = 0 →
          ((Finset.range 3).filter
            fun i => (A.getD j []).getD i 0 = -1).card = 0) ∧
        (∀ i, i < 3 →
          (A.getD j []).getD i 0 = -1 ∨ (A.getD j []).getD i 0 = 1 ∨
            (A.getD j []).getD i 0 = 0) := by
  have h := build_A_matrix_row_pattern [0, 2, 8, 12] [(0, 2), (2, 8)]
    (by decide) (by decide) (by decide)
  simpa using h

theorem getD_map {α β : Type} (f : α → β) (l : List α) (j : Nat) (da : α) (db : β)
    (h : j < l.length) : (l.map f).getD j db = f (l.getD j da) := by
  rw [List.getD_eq_getElem _ _ (by simpa using h), List.getElem_map,
    List.getD_eq_getElem _ _ h]

theorem mem_of_getD {α : Type} (l : List α) (i : Nat) (d v : α) (h : i < l.length)
    (hv : l.getD i d = v) : v ∈ l := by
  rw [List.getD_eq_getElem _ _ h] at hv
  exact hv ▸ List.getElem_mem h

theorem indexOf_lt_indexOf_of_sorted (geos : List ℤ) (a b : ℤ)
    (hgp : geos.Pairwise (· < ·)) (ha : a ∈ geos) (hb : b ∈ geos) (hab : a < b) :
    geos.indexOf a < geos.indexOf b := by
  have hla : geos.indexOf a < geos.length := List.indexOf_lt_length.mpr ha
  have hlb : geos.indexOf b < geos.length := List.indexOf_lt_length.mpr hb
  by_contra hc
  push_neg at hc
  rcases Nat.eq_or_lt_of_le hc with heq | hlt2
  · exact indexOf_ne_of_mem_ne geos a b ha hb (by omega) heq.symm
  · have := (List.pairwise_iff_getElem.mp hgp) _ _ hlb hla hlt2
    rw [List.getElem_indexOf hla, List.getElem_indexOf hlb] at this
    omega

theorem getD_drop_one (D : List ℤ) (i : Nat) (h : i < (D.drop 1).length) :
    (D.drop 1).getD i 0 = D.getD (i + 1) 0 := by
  rw [List.getD_eq_getElem _ _ h, List.getElem_drop, List.getD_eq_getElem _ _ (by
    simp only [List.length_drop] at h
    omega)]
  congr 1
  omega

theorem buildBRow_eq_of (timediffs row : List ℤ) (s e N : Nat)
    (hs : (if (-1 : ℤ) ∈ row then row.indexOf (-1) + 1 else 0) = s)
    (he : row.indexOf 1 + 1 = e) (hN : row.length = N) :
    buildBRow timediffs row = (List.range N).map fun i =>
      if s ≤ i ∧ i < e then timediffs.getD i 0 else 0 := by
  subst hs
  subst he
  subst hN
  rfl

/-- C3: for every valid sorted date list and pair list, each row of the B
matrix sums to the number of days elapsed between the row's early and late
dates, and every entry outside the index range from one-past-the -1 entry
(0 when the A row has no -1) through the +1 entry is zero. -/
theorem build_B_matrix_row_sum (D : List ℤ) (P : List (ℤ × ℤ))
    (hsort : D.Pairwise (· < ·)) (hlen : 2 ≤ D.length)
    (hP : ∀ p ∈ P, p.1 ∈ D ∧ p.2 ∈ D ∧ p.1 < p.2) :
    ∃ A Bm, build_A_matrix D P = some A ∧ build_B_matrix D P = some Bm ∧
      Bm.length = P.length ∧
      ∀ j, j < P.length →
        ((Bm.getD j []).sum = (P.getD j (0, 0)).2 - (P.getD j (0, 0)).1) ∧
        (∀ i, i < D.length - 1 →
          (i < (if (-1 : ℤ) ∈ A.getD j [] then (A.getD j []).indexOf (-1) + 1 else 0) ∨
            (A.getD j []).indexOf 1 < i) →
          (Bm.getD j []).getD i 0 = 0) := by
  have hglen : (D.drop 1).length = D.length - 1 := by simp [List.length_drop]
  have hgp : (D.drop 1).Pairwise (· < ·) := hsort.sublist (List.drop_sublist 1 D)
  have hsome : ∀ p ∈ P, (buildARow (D.drop 1) p).isSome := by
    intro p hp
    obtain ⟨h1, h2, hlt⟩ := hP p hp
    exact buildARow_isSome _ p (early_late_dichotomy D p hsort h1 h2 hlt).1
  obtain ⟨A, hA, hAlen, hAidx⟩ := mapM_option_spec (buildARow (D.drop 1)) P (0, 0) [] hsome
  have hA2 : build_A_matrix D P = some A := hA
  refine ⟨A, A.map (buildBRow (find_time_diffs D)), hA2, ?_, by simp [hAlen], ?_⟩
  · rw [build_B_matrix, hA2]
    rfl
  intro j hj
  have hjA : j < A.length := by omega
  have hBrow : (A.map (buildBRow (find_time_diffs D))).getD j [] =
      buildBRow (find_time_diffs D) (A.getD j []) :=
    getD_map _ A j [] [] hjA
  have hpmem : P.getD j (0, 0) ∈ P := by
    rw [List.getD_eq_getElem _ _ hj]
    exact List.getElem_mem hj
  obtain ⟨h1, h2, hlt⟩ := hP _ hpmem
  obtain ⟨hlat, hdich⟩ := early_late_dichotomy D _ hsort h1 h2 hlt
  have hrow := hAidx j hj
  have hne : (P.getD j (0, 0)).1 ≠ (P.getD j (0, 0)).2 := ne_of_lt hlt
  have hsL : (D.drop 1).indexOf (P.getD j (0, 0)).2 < (D.drop 1).length :=
    List.indexOf_lt_length.mpr hlat
  have hlate_getD : (D.drop 1).getD ((D.drop 1).indexOf (P.getD j (0, 0)).2) 0 =
      (P.getD j (0, 0)).2 := by
    rw [List.getD_eq_getElem _ _ hsL]
    exact List.getElem_indexOf hsL
  by_cases hE : (P.getD j (0, 0)).1 ∈ D.drop 1
  · -- early date present in the stripped list
    rw [buildARow_some_of_mem _ _ hE hlat] at hrow
    have hval : ∀ i, (A.getD j []).getD i 0 =
        if i = (D.drop 1).indexOf (P.getD j (0, 0)).2 then 1
        else if i = (D.drop 1).indexOf (P.getD j (0, 0)).1 then -1 else 0 := by
      intro i
      rw [← Option.some_inj.mp hrow]
      exact aRow_getD_of_mem _ _ hE hlat hne i
    have hsE : (D.drop 1).indexOf (P.getD j (0, 0)).1 < (D.drop 1).length :=
      List.indexOf_lt_length.mpr hE
    have hEL := indexOf_ne_of_mem_ne (D.drop 1) _ _ hE hlat hne
    have hIEL : (D.drop 1).indexOf (P.getD j (0, 0)).1 <
        (D.drop 1).indexOf (P.getD j (0, 0)).2 :=
      indexOf_lt_indexOf_of_sorted _ _ _ hgp hE hlat hlt
    have hrl : (A.getD j []).length = (D.drop 1).length := by
      rw [← Option.some_inj.mp hrow]
      simp
    have hmemneg : (-1 : ℤ) ∈ A.getD j [] := by
      refine mem_of_getD _ ((D.drop 1).indexOf (P.getD j (0, 0)).1) 0 _ (by omega) ?_
      rw [hval, if_neg hEL, if_pos rfl]
    have hidxneg : (A.getD j []).indexOf (-1) = (D.drop 1).indexOf (P.getD j (0, 0)).1 := by
      refine indexOf_eq_of_getD _ _ _ (by omega) ?_ ?_
      · rw [hval, if_neg hEL, if_pos rfl]
      · intro i hi
        rw [hval]
        by_cases hiL : i = (D.drop 1).indexOf (P.getD j (0, 0)).2
        · rw [if_pos hiL]; decide
        · rw [if_neg hiL, if_neg (by omega)]; decide
    have hidxone : (A.getD j []).indexOf 1 = (D.drop 1).indexOf (P.getD j (0, 0)).2 := by
      refine indexOf_eq_of_getD _ _ _ (by omega) ?_ ?_
      · rw [hval, if_pos rfl]
      · intro i hi
        rw [hval, if_neg (by omega)]
        by_cases hiE : i = (D.drop 1).indexOf (P.getD j (0, 0)).1
        · rw [if_pos hiE]; decide
        · rw [if_neg hiE]; decide
    have hearly_getD : D.getD ((D.drop 1).indexOf (P.getD j (0, 0)).1 + 1) 0 =
        (P.getD j (0, 0)).1 := by
      rw [← getD_drop_one D _ hsE, List.getD_eq_getElem _ _ hsE]
      exact List.getElem_indexOf hsE
    constructor
    · -- row sum equals elapsed days
      rw [hBrow, buildBRow_eq_of (find_time_diffs D) (A.getD j [])
        ((D.drop 1).indexOf (P.getD j (0, 0)).1 + 1)
        ((D.drop 1).indexOf (P.getD j (0, 0)).2 + 1) (D.length - 1)
        (by rw [if_pos hmemneg, hidxneg]) (by rw [hidxone]) (by rw [hrl, hglen]),
        sum_map_range]
      have hcond : ∀ i : Nat,
          (if (D.drop 1).indexOf (P.getD j (0, 0)).1 + 1 ≤ i ∧
              i < (D.drop 1).indexOf (P.getD j (0, 0)).2 + 1
            then (find_time_diffs D).getD i 0 else 0) =
          if i ∈ Finset.Ico ((D.drop 1).indexOf (P.getD j (0, 0)).1 + 1)
              ((D.drop 1).indexOf (P.getD j (0, 0)).2 + 1)
            then (find_time_diffs D).getD i 0 else 0 := by
        intro i
        exact if_congr (Iff.symm Finset.mem_Ico) rfl rfl
      rw [Finset.sum_congr rfl fun i _ => hcond i, Finset.sum_ite_mem]
      have hsub : Finset.Ico ((D.drop 1).indexOf (P.getD j (0, 0)).1 + 1)
          ((D.drop 1).indexOf (P.getD j (0, 0)).2 + 1) ⊆ Finset.range (D.length - 1) := by
        intro i hi
        rw [Finset.mem_Ico] at hi
        rw [Finset.mem_range]
        omega
      rw [Finset.inter_eq_right.mpr hsub]
      have hcong : ∀ i ∈ Finset.Ico ((D.drop 1).indexOf (P.getD j (0, 0)).1 + 1)
          ((D.drop 1).indexOf (P.getD j (0, 0)).2 + 1),
          (find_time_diffs D).getD i 0 = D.getD (i + 1) 0 - D.getD i 0 := by
        intro i hi
        rw [Finset.mem_Ico] at hi
        refine find_time_diffs_getD D i (by omega)
      rw [Finset.sum_congr rfl hcong,
        telescope_Ico (fun i => D.getD i 0) _ _ (by omega),
        ← getD_drop_one D _ hsL, hlate_getD, hearly_getD]
    · -- zeros outside the filled range
      intro i hi hout
      rw [hBrow, buildBRow_eq_of (find_time_diffs D) (A.getD j [])
        ((D.drop 1).indexOf (P.getD j (0, 0)).1 + 1)
        ((D.drop 1).indexOf (P.getD j (0, 0)).2 + 1) (D.length - 1)
        (by rw [if_pos hmemneg, hidxneg]) (by rw [hidxone]) (by rw [hrl, hglen]),
        getD_map_range _ _ _ _ (by omega)]
      rw [if_pos hmemneg, hidxneg] at hout
      rcases hout with hlt1 | hgt1
      · rw [if_neg (by omega)]
      · rw [if_neg (by omega)]
  · -- early date is the reference date
    rw [buildARow_some_of_not_mem _ _ hE hlat] at hrow
    have hval : ∀ i, (A.getD j []).getD i 0 =
        if i = (D.drop 1).indexOf (P.getD j (0, 0)).2 then 1 else 0 := by
      intro i
      rw [← Option.some_inj.mp hrow]
      exact aRow_getD_of_not_mem _ _ hlat i
    have hrl : (A.getD j []).length = (D.drop 1).length := by
      rw [← Option.some_inj.mp hrow]
      simp
    have hmemneg : (-1 : ℤ) ∉ A.getD j [] := by
      intro hmem
      obtain ⟨n, hn, hv⟩ := List.mem_iff_getElem.mp hmem
      rw [← List.getD_eq_getElem _ 0 hn, hval] at hv
      by_cases hnL : n = (D.drop 1).indexOf (P.getD j (0, 0)).2
      · rw [if_pos hnL] at hv
        exact absurd hv (by decide)
      · rw [if_neg hnL] at hv
        exact absurd hv (by decide)
    have hidxone : (A.getD j []).indexOf 1 = (D.drop 1).indexOf (P.getD j (0, 0)).2 := by
      refine indexOf_eq_of_getD _ _ _ (by omega) ?_ ?_
      · rw [hval, if_pos rfl]
      · intro i hi
        rw [hval, if_neg (by omega)]
        decide
    have hearly_getD : D.getD 0 0 = (P.getD j (0, 0)).1 := (hdich.mpr hE).symm
    constructor
    · rw [hBrow]
      unfold buildBRow
      rw [if_neg hmemneg, hidxone, hrl, hglen, sum_map_range]
      have hcond : ∀ i : Nat,
          (if 0 ≤ i ∧ i < (D.drop 1).indexOf (P.getD j (0, 0)).2 + 1
            then (find_time_diffs D).getD i 0 else 0) =
          if i ∈ Finset.Ico 0 ((D.drop 1).indexOf (P.getD j (0, 0)).2 + 1)
            then (find_time_diffs D).getD i 0 else 0 := by
        intro i
        exact if_congr (Iff.symm Finset.mem_Ico) rfl rfl
      rw [Finset.sum_congr rfl fun i _ => hcond i, Finset.sum_ite_mem]
      have hsub : Finset.Ico 0 ((D.drop 1).indexOf (P.getD j (0, 0)).2 + 1) ⊆
          Finset.range (D.length - 1) := by
        intro i hi
        rw [Finset.mem_Ico] at hi
        rw [Finset.mem_range]
        omega
      rw [Finset.inter_eq_right.mpr hsub]
      have hcong : ∀ i ∈ Finset.Ico 0 ((D.drop 1).indexOf (P.getD j (0, 0)).2 + 1),
          (find_time_diffs D).getD i 0 = D.getD (i + 1) 0 - D.getD i 0 := by
        intro i hi
        rw [Finset.mem_Ico] at hi
        refine find_time_diffs_getD D i (by omega)
      rw [Finset.sum_congr rfl hcong,
        telescope_Ico (fun i => D.getD i 0) _ _ (by omega),
        ← getD_drop_one D _ hsL, hlate_getD, hearly_getD]
    · intro i hi hout
      rw [hBrow, buildBRow_eq_of (find_time_diffs D) (A.getD j []) 0
        ((D.drop 1).indexOf (P.getD j (0, 0)).2 + 1) (D.length - 1)
        (by rw [if_neg hmemneg]) (by rw [hidxone]) (by rw [hrl, hglen]),
        getD_map_range _ _ _ _ (by omega)]
      rw [if_neg hmemneg] at hout
      rcases hout with hlt1 | hgt1
      · omega
      · rw [if_neg (by omega)]

/-- Witness for C3 on the concrete test scenario of the repository. -/
theorem build_B_matrix_row_sum_witness :
    ∃ A Bm, build_A_matrix [0, 2, 8, 12] [(0, 2), (2, 12)] = some A ∧
      build_B_matrix [0, 2, 8, 12] [(0, 2), (2, 12)] = some Bm ∧
      Bm.length = 2 ∧
      ∀ j, j < 2 →
        ((Bm.getD j []).sum =
          ([(0, 2), (2, 12)].getD j ((0 : ℤ), (0 : ℤ))).2 -
            ([(0, 2), (2, 12)].getD j ((0 : ℤ), (0 : ℤ))).1) ∧
        (∀ i, i < 3 →
          (i < (if (-1 : ℤ) ∈ A.getD j [] then (A.getD j []).indexOf (-1) + 1 else 0) ∨
            (A.getD j []).indexOf 1 < i) →
          (Bm.getD j []).getD i 0 = 0) := by
  have h := build_B_matrix_row_sum [0, 2, 8, 12] [(0, 2), (2, 12)]
    (by decide) (by decide) (by decide)
  simpa using h

/-- C7: `build_A_matrix` (and hence `build_B_matrix`) treats a pair whose
early date is absent from D[1:] as the zero-time reference and completes
normally with that row's early contribution left as 0 (no -1 entry, +1 at
the late date's index), whereas a pair whose late date is absent from D[1:]
makes the whole call fail (`none`, the source's uncaught ValueError). -/
theorem build_A_matrix_missing_dates (D : List ℤ) (P Q : List (ℤ × ℤ))
    (hPlate : ∀ p ∈ P, p.2 ∈ D.drop 1)
    (hQ : ∃ q ∈ Q, q.2 ∉ D.drop 1) :
    (∃ A, build_A_matrix D P = some A ∧ A.length = P.length ∧
      ∀ j, j < P.length → (P.getD j (0, 0)).1 ∉ D.drop 1 →
        (∀ i, (A.getD j []).getD i 0 ≠ -1) ∧
        (A.getD j []).getD ((D.drop 1).indexOf (P.getD j (0, 0)).2) 0 = 1) ∧
    build_A_matrix D Q = none ∧ build_B_matrix D Q = none := by
  have hsome : ∀ p ∈ P, (buildARow (D.drop 1) p).isSome := fun p hp =>
    buildARow_isSome _ p (hPlate p hp)
  obtain ⟨A, hA, hAlen, hAidx⟩ := mapM_option_spec (buildARow (D.drop 1)) P (0, 0) [] hsome
  obtain ⟨q, hqmem, hqlate⟩ := hQ
  have hnone : build_A_matrix D Q = none :=
    mapM_option_none (buildARow (D.drop 1)) Q q hqmem (buildARow_none _ q hqlate)
  refine ⟨⟨A, hA, hAlen, ?_⟩, hnone, ?_⟩
  · intro j hj hE
    have hpmem : P.getD j (0, 0) ∈ P := by
      rw [List.getD_eq_getElem _ _ hj]
      exact List.getElem_mem hj
    have hlat := hPlate _ hpmem
    have hrow := hAidx j hj
    rw [buildARow_some_of_not_mem _ _ hE hlat] at hrow
    have hval : ∀ i, (A.getD j []).getD i 0 =
        if i = (D.drop 1).indexOf (P.getD j (0, 0)).2 then 1 else 0 := by
      intro i
      rw [← Option.some_inj.mp hrow]
      exact aRow_getD_of_not_mem _ _ hlat i
    constructor
    · intro i
      rw [hval]
      by_cases hiL : i = (D.drop 1).indexOf (P.getD j (0, 0)).2
      · rw [if_pos hiL]; decide
      · rw [if_neg hiL]; decide
    · rw [hval, if_pos rfl]
  · rw [build_B_matrix, hnone]
    rfl

/-- Witness for C7: the early date 1 of the second pair is absent from
D[1:] (reference-like), while the late date 3 of Q's pair is absent and
makes the call fail. -/
theorem build_A_matrix_missing_dates_witness :
    (∃ A, build_A_matrix [0, 2, 8] [(0, 2), (1, 8)] = some A ∧ A.length = 2 ∧
      ∀ j, j < 2 → ([(0, 2), (1, 8)].getD j ((0 : ℤ), (0 : ℤ))).1 ∉ [(2 : ℤ), 8] →
        (∀ i, (A.getD j []).getD i 0 ≠ -1) ∧
        (A.getD j []).getD
          (([(2 : ℤ), 8]).indexOf ([(0, 2), (1, 8)].getD j ((0 : ℤ), (0 : ℤ))).2) 0 = 1) ∧
    build_A_matrix [0, 2, 8] [(0, 3)] = none ∧
    build_B_matrix [0, 2, 8] [(0, 3)] = none := by
  have h := build_A_matrix_missing_dates [0, 2, 8] [(0, 2), (1, 8)] [(0, 3)]
    (by decide) (by decide)
  simpa using h

theorem getD_mem {α : Type} (l : List α) (i : Nat) (d : α) (h : i < l.length) :
    l.getD i d ∈ l := by
  rw [List.getD_eq_getElem _ _ h]
  exact List.getElem_mem h

theorem getD_zipWith {α β γ : Type} (f : α → β → γ) (l1 : List α) (l2 : List β)
    (i : Nat) (d1 : α) (d2 : β) (d3 : γ) (h1 : i < l1.length) (h2 : i < l2.length) :
    (List.zipWith f l1 l2).getD i d3 = f (l1.getD i d1) (l2.getD i d2) := by
  rw [List.getD_eq_getElem _ _ (by rw [List.length_zipWith]; omega),
    List.getElem_zipWith, List.getD_eq_getElem _ _ h1, List.getD_eq_getElem _ _ h2]

theorem addRows_length (xs ys : List ℚ) :
    (addRows xs ys).length = min xs.length ys.length := by
  simp [addRows]

theorem cumsumFrom_row_length (K : Nat) (acc : List ℚ) (rows : Mat)
    (hacc : acc.length = K) (hrows : ∀ r ∈ rows, r.length = K) :
    ∀ r ∈ cumsumFrom acc rows, r.length = K := by
  induction rows generalizing acc with
  | nil =>
    intro r hr
    simp [cumsumFrom] at hr
  | cons r0 rs ih =>
    intro r hr
    have hlen0 : (addRows acc r0).length = K := by
      rw [addRows_length, hacc, hrows r0 (List.mem_cons_self r0 rs)]
      simp
    rcases List.mem_cons.mp hr with rfl | hmem
    · exact hlen0
    · exact ih (addRows acc r0) hlen0
        (fun x hx => hrows x (List.mem_cons_of_mem _ hx)) r hmem

theorem cumsumRows_row_length (K : Nat) (rows : Mat)
    (hrows : ∀ r ∈ rows, r.length = K) : ∀ r ∈ cumsumRows rows, r.length = K := by
  cases rows with
  | nil =>
    intro r hr
    simp [cumsumRows] at hr
  | cons r0 rs =>
    intro r hr
    rcases List.mem_cons.mp hr with rfl | hmem
    · exact hrows r (List.mem_cons_self r rs)
    · exact cumsumFrom_row_length K r0 rs (hrows r0 (List.mem_cons_self r0 rs))
        (fun x hx => hrows x (List.mem_cons_of_mem _ hx)) r hmem

/-- C1: for every design matrix B with as many columns as timediffs and
every batched phase-difference input, `invert_sbas` returns a velocity
batch of N-1 = len(timediffs) rows and a phase batch of N rows whose first
row is identically zero and whose successive rows each add
timediffs[i] * velocity[i] elementwise; the phase batch is therefore the
cumulative sum along the time axis of timediffs ⊙ velocity with one zero
row prepended.  The solver-shape hypotheses state the lstsq output contract
(one velocity row per column of B, one column per pixel). -/
theorem invert_sbas_reconstruction (lstsq : List (List ℤ) → Mat → Mat)
    (B : List (List ℤ)) (timediffs : List ℤ) (delta_phis : Mat) (K : Nat)
    (hB : ∀ r ∈ B, r.length = timediffs.length)
    (htd : 0 < timediffs.length)
    (hVlen : (lstsq B delta_phis).length = timediffs.length)
    (hVrow : ∀ r ∈ lstsq B delta_phis, r.length = K) :
    (invert_sbas lstsq delta_phis timediffs B).1.length = timediffs.length ∧
    (invert_sbas lstsq delta_phis timediffs B).2.length = timediffs.length + 1 ∧
    (∀ k, k < K →
      ((invert_sbas lstsq delta_phis timediffs B).2.getD 0 []).getD k 0 = 0) ∧
    (∀ i, i < timediffs.length → ∀ k, k < K →
      ((invert_sbas lstsq delta_phis timediffs B).2.getD (i + 1) []).getD k 0 =
        ((invert_sbas lstsq delta_phis timediffs B).2.getD i []).getD k 0 +
          (timediffs.getD i 0 : ℚ) *
            (((invert_sbas lstsq delta_phis timediffs B).1.getD i []).getD k 0)) := by
  have h1 : (invert_sbas lstsq delta_phis timediffs B).1 = lstsq B delta_phis := rfl
  have h2 : (invert_sbas lstsq delta_phis timediffs B).2 =
      List.replicate
        ((cumsumRows (List.zipWith (fun t row => row.map fun x => (t : ℚ) * x)
          timediffs (lstsq B delta_phis))).headD []).length 0 ::
        cumsumRows (List.zipWith (fun t row => row.map fun x => (t : ℚ) * x)
          timediffs (lstsq B delta_phis)) := rfl
  have hdlen : (List.zipWith (fun t row => row.map fun x => (t : ℚ) * x)
      timediffs (lstsq B delta_phis)).length = timediffs.length := by
    rw [List.length_zipWith, hVlen]
    simp
  have hdrow : ∀ i, i < timediffs.length →
      (List.zipWith (fun t row => row.map fun x => (t : ℚ) * x)
        timediffs (lstsq B delta_phis)).getD i [] =
      ((lstsq B delta_phis).getD i []).map fun x => (timediffs.getD i 0 : ℚ) * x := by
    intro i hi
    exact getD_zipWith _ timediffs (lstsq B delta_phis) i 0 [] [] hi (by omega)
  have hdwidth : ∀ r ∈ List.zipWith (fun t row => row.map fun x => (t : ℚ) * x)
      timediffs (lstsq B delta_phis), r.length = K := by
    intro r hr
    obtain ⟨n, hn, hv⟩ := List.mem_iff_getElem.mp hr
    rw [List.length_zipWith] at hn
    have hn' : n < timediffs.length := by omega
    rw [← List.getD_eq_getElem _ [] (by rw [List.length_zipWith]; omega)] at hv
    rw [hdrow n hn'] at hv
    rw [← hv, List.length_map]
    exact hVrow _ (getD_mem _ n [] (by omega))
  have hcwidth := cumsumRows_row_length K _ hdwidth
  have hclen : (cumsumRows (List.zipWith (fun t row => row.map fun x => (t : ℚ) * x)
      timediffs (lstsq B delta_phis))).length = timediffs.length := by
    rw [cumsumRows_length, hdlen]
  have hhead : (cumsumRows (List.zipWith (fun t row => row.map fun x => (t : ℚ) * x)
      timediffs (lstsq B delta_phis))).headD [] =
      (cumsumRows (List.zipWith (fun t row => row.map fun x => (t : ℚ) * x)
        timediffs (lstsq B delta_phis))).getD 0 [] := by
    cases h : cumsumRows (List.zipWith (fun t row => row.map fun x => (t : ℚ) * x)
        timediffs (lstsq B delta_phis)) with
    | nil => rfl
    | cons a l => rfl
  have hheadwidth :
      ((cumsumRows (List.zipWith (fun t row => row.map fun x => (t : ℚ) * x)
        timediffs (lstsq B delta_phis))).headD []).length = K := by
    rw [hhead]
    exact hcwidth _ (getD_mem _ 0 [] (by omega))
  refine ⟨by rw [h1, hVlen], by rw [h2]; simp [hclen], ?_, ?_⟩
  · intro k _
    rw [h2, List.getD_cons_zero, hheadwidth]
    exact getD_replicate_self K 0 k
  · intro i hi k hk
    cases i with
    | zero =>
      rw [h2, List.getD_cons_succ, List.getD_cons_zero, hheadwidth]
      have hzero : (List.replicate K (0 : ℚ)).getD k 0 = 0 := getD_replicate_self K 0 k
      rw [hzero]
      have hcz : (cumsumRows (List.zipWith (fun t row => row.map fun x => (t : ℚ) * x)
          timediffs (lstsq B delta_phis))).getD 0 [] =
          (List.zipWith (fun t row => row.map fun x => (t : ℚ) * x)
            timediffs (lstsq B delta_phis)).getD 0 [] := by
        cases h : List.zipWith (fun t row => row.map fun x => (t : ℚ) * x)
            timediffs (lstsq B delta_phis) with
        | nil =>
          rw [h] at hdlen
          simp at hdlen
          omega
        | cons a l => rfl
      rw [hcz, hdrow 0 hi, h1]
      rw [getD_map _ _ k 0 0 (by rw [hVrow _ (getD_mem _ 0 [] (by omega))]; omega)]
      ring
    | succ i =>
      have hstep := cumsumRows_getD_succ
        (List.zipWith (fun t row => row.map fun x => (t : ℚ) * x)
          timediffs (lstsq B delta_phis)) i (by omega)
      rw [h2, List.getD_cons_succ, List.getD_cons_succ, hstep]
      have hw1 : ((cumsumRows (List.zipWith (fun t row => row.map fun x => (t : ℚ) * x)
          timediffs (lstsq B delta_phis))).getD i []).length = K :=
        hcwidth _ (getD_mem _ i [] (by omega))
      have hw2 : ((List.zipWith (fun t row => row.map fun x => (t : ℚ) * x)
          timediffs (lstsq B delta_phis)).getD (i + 1) []).length = K := by
        rw [hdrow (i + 1) hi, List.length_map]
        exact hVrow _ (getD_mem _ (i + 1) [] (by omega))
      rw [addRows_getD _ _ k (by omega) (by omega), hdrow (i + 1) hi, h1]
      rw [getD_map _ _ k 0 0 (by rw [hVrow _ (getD_mem _ (i + 1) [] (by omega))]; omega)]

/-- Witness for C1 on the concrete repository test system with the exact
solver output. -/
theorem invert_sbas_reconstruction_witness :
    (invert_sbas (fun _ _ => [[1], [2], [1/2]]) [[2], [14], [12], [14], [2]]
      [2, 6, 4] [[2, 0, 0], [2, 6, 0], [0, 6, 0], [0, 6, 4], [0, 0, 4]]).1.length = 3 ∧
    (invert_sbas (fun _ _ => [[1], [2], [1/2]]) [[2], [14], [12], [14], [2]]
      [2, 6, 4] [[2, 0, 0], [2, 6, 0], [0, 6, 0], [0, 6, 4], [0, 0, 4]]).2.length = 3 + 1 ∧
    (∀ k, k < 1 →
      ((invert_sbas (fun _ _ => [[1], [2], [1/2]]) [[2], [14], [12], [14], [2]]
        [2, 6, 4] [[2, 0, 0], [2, 6, 0], [0, 6, 0], [0, 6, 4], [0, 0, 4]]).2.getD 0
          []).getD k 0 = 0) ∧
    (∀ i, i < 3 → ∀ k, k < 1 →
      ((invert_sbas (fun _ _ => [[1], [2], [1/2]]) [[2], [14], [12], [14], [2]]
        [2, 6, 4] [[2, 0, 0], [2, 6, 0], [0, 6, 0], [0, 6, 4], [0, 0, 4]]).2.getD (i + 1)
          []).getD k 0 =
        ((invert_sbas (fun _ _ => [[1], [2], [1/2]]) [[2], [14], [12], [14], [2]]
          [2, 6, 4] [[2, 0, 0], [2, 6, 0], [0, 6, 0], [0, 6, 4], [0, 0, 4]]).2.getD i
            []).getD k 0 +
          (([2, 6, 4] : List ℤ).getD i 0 : ℚ) *
            (((invert_sbas (fun _ _ => [[1], [2], [1/2]]) [[2], [14], [12], [14], [2]]
              [2, 6, 4] [[2, 0, 0], [2, 6, 0], [0, 6, 0], [0, 6, 4], [0, 0, 4]]).1.getD i
                []).getD k 0)) := by
  have h := invert_sbas_reconstruction (fun _ _ => [[1], [2], [1/2]])
    [[2, 0, 0], [2, 6, 0], [0, 6, 0], [0, 6, 4], [0, 0, 4]] [2, 6, 4]
    [[2], [14], [12], [14], [2]] 1 (by decide) (by decide) (by decide) (by decide)
  simpa using h

theorem invert_sbas_congr (lstsq lstsq2 : List (List ℤ) → Mat → Mat)
    (delta_phis : Mat) (timediffs : List ℤ) (B : List (List ℤ))
    (h : lstsq B delta_phis = lstsq2 B delta_phis) :
    invert_sbas lstsq delta_phis timediffs B =
      invert_sbas lstsq2 delta_phis timediffs B := by
  unfold invert_sbas
  rw [h]

/-- C4: the concrete repository scenario.  Dates 2018-04-20, 2018-04-22,
2018-04-28, 2018-05-02 are day offsets 0, 2, 8, 12 from the first
acquisition; the five igrams carry phase differences [2, 14, 12, 14, 2].
find_time_diffs returns [2, 6, 4], build_B_matrix the expected 5x3 design
matrix, and invert_sbas, for any solver satisfying the least-squares
specification on this system (which is full rank with a zero-residual
solution, so the minimiser is unique), returns velocity [1, 2, 1/2] and
reconstructed phase [0, 2, 14, 16] exactly. -/
theorem sbas_concrete_scenario (lstsq : List (List ℤ) → Mat → Mat)
    (hsol : IsLstsqSol [[2, 0, 0], [2, 6, 0], [0, 6, 0], [0, 6, 4], [0, 0, 4]]
      [[2], [14], [12], [14], [2]]
      (lstsq [[2, 0, 0], [2, 6, 0], [0, 6, 0], [0, 6, 4], [0, 0, 4]]
        [[2], [14], [12], [14], [2]])) :
    find_time_diffs [0, 2, 8, 12] = [2, 6, 4] ∧
    build_B_matrix [0, 2, 8, 12] [(0, 2), (0, 8), (2, 8), (2, 12), (8, 12)] =
      some [[2, 0, 0], [2, 6, 0], [0, 6, 0], [0, 6, 4], [0, 0, 4]] ∧
    invert_sbas lstsq [[2], [14], [12], [14], [2]] [2, 6, 4]
        [[2, 0, 0], [2, 6, 0], [0, 6, 0], [0, 6, 4], [0, 0, 4]] =
      ([[1], [2], [1/2]], [[0], [2], [14], [16]]) := by
  obtain ⟨hlen, hrows, hmin⟩ := hsol
  have hlen3 : (lstsq [[2, 0, 0], [2, 6, 0], [0, 6, 0], [0, 6, 4], [0, 0, 4]]
      [[2], [14], [12], [14], [2]]).length = 3 := hlen
  have hrows1 : ∀ r ∈ lstsq [[2, 0, 0], [2, 6, 0], [0, 6, 0], [0, 6, 4], [0, 0, 4]]
      [[2], [14], [12], [14], [2]], r.length = 1 := hrows
  obtain ⟨r0, r1, r2, hV3⟩ := List.length_eq_three.mp hlen3
  obtain ⟨a0, h0⟩ := List.length_eq_one.mp (hrows1 r0 (by rw [hV3]; simp))
  obtain ⟨a1, h1⟩ := List.length_eq_one.mp (hrows1 r1 (by rw [hV3]; simp))
  obtain ⟨a2, h2⟩ := List.length_eq_one.mp (hrows1 r2 (by rw [hV3]; simp))
  subst h0 h1 h2
  have hle := hmin 0 (by decide) [1, 2, 1/2] (by rw [hlen3]; rfl)
  rw [hV3] at hle
  have hrhs : residSq [[2, 0, 0], [2, 6, 0], [0, 6, 0], [0, 6, 4], [0, 0, 4]]
      (colOf [[2], [14], [12], [14], [2]] 0) [1, 2, 1/2] = 0 := by
    norm_num [residSq, mulVec, dotRow, colOf]
  rw [hrhs] at hle
  have heq : residSq [[2, 0, 0], [2, 6, 0], [0, 6, 0], [0, 6, 4], [0, 0, 4]]
      (colOf [[2], [14], [12], [14], [2]] 0) (colOf [[a0], [a1], [a2]] 0) = 0 :=
    le_antisymm hle (residSq_nonneg _ _ _)
  have hpoly : (2 * a0 - 2) ^ 2 + (2 * a0 + 6 * a1 - 14) ^ 2 + (6 * a1 - 12) ^ 2 +
      (6 * a1 + 4 * a2 - 14) ^ 2 + (4 * a2 - 2) ^ 2 = 0 := by
    simp only [residSq, mulVec, dotRow, colOf, List.map_cons, List.map_nil,
      List.zipWith_cons_cons, List.zipWith_nil_right, List.zipWith_nil_left,
      List.sum_cons, List.sum_nil, List.getD_cons_zero] at heq
    norm_num at heq
    linear_combination heq
  have hs1 : (2 * a0 - 2) ^ 2 ≤ 0 := by
    nlinarith [sq_nonneg (2 * a0 + 6 * a1 - 14), sq_nonneg (6 * a1 - 12),
      sq_nonneg (6 * a1 + 4 * a2 - 14), sq_nonneg (4 * a2 - 2)]
  have hs3 : (6 * a1 - 12) ^ 2 ≤ 0 := by
    nlinarith [sq_nonneg (2 * a0 - 2), sq_nonneg (2 * a0 + 6 * a1 - 14),
      sq_nonneg (6 * a1 + 4 * a2 - 14), sq_nonneg (4 * a2 - 2)]
  have hs5 : (4 * a2 - 2) ^ 2 ≤ 0 := by
    nlinarith [sq_nonneg (2 * a0 - 2), sq_nonneg (2 * a0 + 6 * a1 - 14),
      sq_nonneg (6 * a1 - 12), sq_nonneg (6 * a1 + 4 * a2 - 14)]
  have ha0 : a0 = 1 := by
    have hz : 2 * a0 - 2 = 0 :=
      (pow_eq_zero_iff (by norm_num)).mp (le_antisymm hs1 (sq_nonneg _))
    linarith
  have ha1 : a1 = 2 := by
    have hz : 6 * a1 - 12 = 0 :=
      (pow_eq_zero_iff (by norm_num)).mp (le_antisymm hs3 (sq_nonneg _))
    linarith
  have ha2 : a2 = 1 / 2 := by
    have hz : 4 * a2 - 2 = 0 :=
      (pow_eq_zero_iff (by norm_num)).mp (le_antisymm hs5 (sq_nonneg _))
    linarith
  subst ha0 ha1 ha2
  refine ⟨by decide, by decide, ?_⟩
  rw [invert_sbas_congr lstsq (fun _ _ => [[1], [2], [1/2]]) _ _ _ hV3]
  norm_num [invert_sbas, cumsumRows, cumsumFrom, addRows]

/-- Witness for C4: the constant solver returning the exact solution
satisfies the least-squares specification at this input, so the scenario
theorem instantiates. -/
theorem sbas_concrete_scenario_witness :
    find_time_diffs [0, 2, 8, 12] = [2, 6, 4] ∧
    build_B_matrix [0, 2, 8, 12] [(0, 2), (0, 8), (2, 8), (2, 12), (8, 12)] =
      some [[2, 0, 0], [2, 6, 0], [0, 6, 0], [0, 6, 4], [0, 0, 4]] ∧
    invert_sbas (fun _ _ => [[1], [2], [1/2]]) [[2], [14], [12], [14], [2]] [2, 6, 4]
        [[2, 0, 0], [2, 6, 0], [0, 6, 0], [0, 6, 4], [0, 0, 4]] =
      ([[1], [2], [1/2]], [[0], [2], [14], [16]]) :=
  sbas_concrete_scenario (fun _ _ => [[1], [2], [1/2]])
    ⟨rfl, by
      intro r hr
      simp only [List.mem_cons, List.not_mem_nil, or_false] at hr
      rcases hr with rfl | rfl | rfl <;> rfl, by
      intro k hk w hw
      have hk1 : k < 1 := hk
      have hk0 : k = 0 := by omega
      subst hk0
      have h0 : residSq [[2, 0, 0], [2, 6, 0], [0, 6, 0], [0, 6, 4], [0, 0, 4]]
          (colOf [[2], [14], [12], [14], [2]] 0)
          (colOf [[1], [2], [1/2]] 0) = 0 := by
        norm_num [residSq, mulVec, dotRow, colOf]
      rw [h0]
      exact residSq_nonneg _ _ _⟩

/-- C6 counterexample: `read_geolist` does not de-duplicate.  With a parse
function sending both manifest lines to the same date, the returned list
contains that date twice, refuting the claim that a date carried by two
manifest lines appears exactly once. -/
theorem read_geolist_counterexample :
    ¬ (read_geolist (fun _ => 0) ["a", "b"]).count 0 = 1 := by
  decide

/-- C6 (amended): `read_geolist` returns the per-line parsed dates sorted
ascending, with duplicates retained: the output is a permutation of the
parsed dates, so each date occurs once per manifest line carrying it (not
de-duplicated). -/
theorem read_geolist_sorted_perm (parse : String → ℤ) (lines : List String) :
    (read_geolist parse lines).Sorted (· ≤ ·) ∧
    List.Perm (read_geolist parse lines) (lines.map parse) ∧
    ∀ d : ℤ, (read_geolist parse lines).count d = (lines.map parse).count d :=
  ⟨List.sorted_insertionSort _ _, List.perm_insertionSort _ _,
    fun d => (List.perm_insertionSort _ _).count_eq d⟩

theorem stack_layer_some (rows cols : Nat) (rr rc : ℤ) (img : List (List ℚ))
    (hil : img.length = rows) (hic : ∀ ro ∈ img, ro.length = cols)
    (hr0 : 0 ≤ rr) (hr1 : rr < (rows : ℤ)) (hc0 : 0 ≤ rc) (hc1 : rc < (cols : ℤ)) :
    (do
      let refrow ← npIdx img rr
      let refval ← npIdx refrow rc
      pure (img.map fun ro => ro.map fun x => x - refval) : Option (List (List ℚ))) =
    some (img.map fun ro => ro.map fun x =>
      x - (img.getD rr.toNat []).getD rc.toNat 0) := by
  obtain ⟨hrn, hrow⟩ := npIdx_eq_getElem img rr hr0 (by omega)
  have hrowlen : img[rr.toNat].length = cols :=
    hic _ (List.getElem_mem hrn)
  obtain ⟨hcn, hval⟩ := npIdx_eq_getElem img[rr.toNat] rc hc0 (by omega)
  rw [hrow]
  simp only [Option.bind_eq_bind, Option.some_bind]
  rw [hval]
  simp only [Option.some_bind]
  have hgd : img[rr.toNat][rc.toNat] = (img.getD rr.toNat []).getD rc.toNat 0 := by
    rw [List.getD_eq_getElem _ _ hrn, List.getD_eq_getElem _ _ hcn]
  rw [hgd]
  rfl

/-- Shape and content of a successful `read_unw_stack` call with a
non-negative in-bounds reference pixel. -/
theorem read_unw_stack_spec (rows cols : Nat) (images : List (List (List ℚ))) (rr rc : ℤ)
    (himg : ∀ img ∈ images, img.length = rows ∧ ∀ ro ∈ img, ro.length = cols)
    (hr0 : 0 ≤ rr) (hr1 : rr < (rows : ℤ)) (hc0 : 0 ≤ rc) (hc1 : rc < (cols : ℤ)) :
    ∃ stack, read_unw_stack rows cols images rr rc = some stack ∧
      ∀ r, r < rows → ∀ c, c < cols → ∀ k, k < images.length →
        ((stack.getD r []).getD c []).getD k 0 =
          ((images.getD k []).getD r []).getD c 0 -
            ((images.getD k []).getD rr.toNat []).getD rc.toNat 0 := by
  have hsome : ∀ img ∈ images, ((do
      let refrow ← npIdx img rr
      let refval ← npIdx refrow rc
      pure (img.map fun ro => ro.map fun x => x - refval) : Option (List (List ℚ)))).isSome := by
    intro img hi
    rw [stack_layer_some rows cols rr rc img (himg img hi).1 (himg img hi).2 hr0 hr1 hc0 hc1]
    rfl
  obtain ⟨layers, hlayers, hllen, hlidx⟩ := mapM_option_spec _ images [] [] hsome
  refine ⟨(List.range rows).map fun r => (List.range cols).map fun c =>
    layers.map fun layer => (layer.getD r []).getD c 0, ?_, ?_⟩
  · unfold read_unw_stack
    rw [hlayers]
    rfl
  · intro r hrr c hcc k hk
    have hkmem : images.getD k [] ∈ images := getD_mem _ k [] hk
    have hlayer : layers.getD k [] = (images.getD k []).map fun ro => ro.map fun x =>
        x - ((images.getD k []).getD rr.toNat []).getD rc.toNat 0 := by
      have h := hlidx k hk
      rw [stack_layer_some rows cols rr rc _ (himg _ hkmem).1 (himg _ hkmem).2
        hr0 hr1 hc0 hc1] at h
      exact (Option.some_inj.mp h).symm
    rw [getD_map_range rows _ [] r hrr, getD_map_range cols _ [] c hcc,
      getD_map _ layers k [] 0 (by omega), hlayer]
    have hil : (images.getD k []).length = rows := (himg _ hkmem).1
    rw [getD_map _ (images.getD k []) r [] [] (by omega)]
    have hrowmem : (images.getD k []).getD r [] ∈ images.getD k [] :=
      getD_mem _ r [] (by omega)
    have hrowlen : ((images.getD k []).getD r []).length = cols :=
      (himg _ hkmem).2 _ hrowmem
    rw [getD_map _ ((images.getD k []).getD r []) c 0 0 (by omega)]

/-- C9: every successful `read_unw_stack` with an in-bounds (non-negative)
reference pixel yields a stack whose value at the reference pixel is
exactly 0 in every layer k, and whose layer k is the k-th loaded image
minus that image's value at the reference pixel. -/
theorem read_unw_stack_reference_zero (rows cols : Nat)
    (images : List (List (List ℚ))) (rr rc : ℤ)
    (himg : ∀ img ∈ images, img.length = rows ∧ ∀ ro ∈ img, ro.length = cols)
    (hr0 : 0 ≤ rr) (hr1 : rr < (rows : ℤ)) (hc0 : 0 ≤ rc) (hc1 : rc < (cols : ℤ)) :
    ∃ stack, read_unw_stack rows cols images rr rc = some stack ∧
      (∀ k, k < images.length →
        ((stack.getD rr.toNat []).getD rc.toNat []).getD k 0 = 0) ∧
      ∀ r, r < rows → ∀ c, c < cols → ∀ k, k < images.length →
        ((stack.getD r []).getD c []).getD k 0 =
          ((images.getD k []).getD r []).getD c 0 -
            ((images.getD k []).getD rr.toNat []).getD rc.toNat 0 := by
  obtain ⟨stack, hstack, hfor⟩ :=
    read_unw_stack_spec rows cols images rr rc himg hr0 hr1 hc0 hc1
  refine ⟨stack, hstack, ?_, hfor⟩
  intro k hk
  rw [hfor rr.toNat (by omega) rc.toNat (by omega) k hk]
  ring

/-- Witness for C9 on a concrete 2x3 image with reference pixel (0, 1). -/
theorem read_unw_stack_reference_zero_witness :
    ∃ stack, read_unw_stack 2 3 [[[1, 2, 3], [4, 5, 6]]] 0 1 = some stack ∧
      (∀ k, k < 1 →
        ((stack.getD (0 : ℤ).toNat []).getD (1 : ℤ).toNat []).getD k 0 = 0) ∧
      ∀ r, r < 2 → ∀ c, c < 3 → ∀ k, k < 1 →
        ((stack.getD r []).getD c []).getD k 0 =
          (([[[1, 2, 3], [4, 5, 6]]].getD k []).getD r []).getD c 0 -
            (([[[1, 2, 3], [4, 5, 6]]].getD k []).getD (0 : ℤ).toNat []).getD
              (1 : ℤ).toNat 0 := by
  have h := read_unw_stack_reference_zero 2 3 [[[1, 2, 3], [4, 5, 6]]] 0 1
    (by
      intro img hi
      simp only [List.mem_cons, List.not_mem_nil, or_false] at hi
      subst hi
      refine ⟨rfl, ?_⟩
      intro ro hro
      simp only [List.mem_cons, List.not_mem_nil, or_false] at hro
      rcases hro with rfl | rfl <;> rfl)
    (by norm_num) (by norm_num) (by norm_num) (by norm_num)
  simpa using h

theorem mapM_option_congr {α β : Type} (f g : α → Option β) (l : List α)
    (h : ∀ a ∈ l, f a = g a) : l.mapM f = l.mapM g := by
  induction l with
  | nil => rfl
  | cons a l ih =>
    rw [List.mapM_cons, List.mapM_cons, h a (List.mem_cons_self a l),
      ih (fun x hx => h x (List.mem_cons_of_mem a hx))]

theorem mapM_option_isSome_iff {α β : Type} (f : α → Option β) (l : List α) :
    (l.mapM f).isSome ↔ ∀ a ∈ l, (f a).isSome := by
  constructor
  · intro hs
    by_contra hc
    push_neg at hc
    obtain ⟨a, ha, hna⟩ := hc
    have hfa : f a = none := by
      cases hfa : f a with
      | none => rfl
      | some b =>
        rw [hfa] at hna
        exact absurd rfl hna
    rw [mapM_option_none f l a ha hfa] at hs
    exact absurd hs (by simp)
  · intro h
    cases l with
    | nil => rfl
    | cons a l =>
      obtain ⟨b, -⟩ := Option.isSome_iff_exists.mp (h a (List.mem_cons_self a l))
      obtain ⟨ys, hys, -, -⟩ := mapM_option_spec f (a :: l) a b h
      rw [hys]
      rfl

theorem stack_layer_isSome (rows cols : Nat) (rr rc : ℤ) (img : List (List ℚ))
    (hil : img.length = rows) (hic : ∀ ro ∈ img, ro.length = cols) :
    ((do
      let refrow ← npIdx img rr
      let refval ← npIdx refrow rc
      pure (img.map fun ro => ro.map fun x => x - refval) :
        Option (List (List ℚ)))).isSome ↔
    (-(rows : ℤ) ≤ rr ∧ rr < rows ∧ -(cols : ℤ) ≤ rc ∧ rc < cols) := by
  cases hn : npIdx img rr with
  | none =>
    have hb : ¬(-(img.length : ℤ) ≤ rr ∧ rr < img.length) := by
      intro hh
      have := (npIdx_isSome_iff img rr).mpr hh
      rw [hn] at this
      exact absurd this (by simp)
    rw [hil] at hb
    simp only [hn, Option.bind_eq_bind, Option.none_bind, Option.isSome_none]
    constructor
    · intro hh
      exact absurd hh (by simp)
    · rintro ⟨h1, h2, -, -⟩
      exact absurd ⟨h1, h2⟩ hb
  | some refrow =>
    have hrowlen : refrow.length = cols := hic _ (npIdx_mem img rr refrow hn)
    have hrowbounds : -(rows : ℤ) ≤ rr ∧ rr < rows := by
      have hsome : (npIdx img rr).isSome := by rw [hn]; rfl
      have := (npIdx_isSome_iff img rr).mp hsome
      rw [hil] at this
      exact this
    cases hcnd : npIdx refrow rc with
    | none =>
      have hb : ¬(-(refrow.length : ℤ) ≤ rc ∧ rc < refrow.length) := by
        intro hh
        have := (npIdx_isSome_iff refrow rc).mpr hh
        rw [hcnd] at this
        exact absurd this (by simp)
      rw [hrowlen] at hb
      simp only [hn, hcnd, Option.bind_eq_bind, Option.some_bind, Option.none_bind,
        Option.isSome_none]
      constructor
      · intro hh
        exact absurd hh (by simp)
      · rintro ⟨-, -, h3, h4⟩
        exact absurd ⟨h3, h4⟩ hb
    | some refval =>
      have hsome : (npIdx refrow rc).isSome := by rw [hcnd]; rfl
      have hcb := (npIdx_isSome_iff refrow rc).mp hsome
      rw [hrowlen] at hcb
      simp only [hn, hcnd, Option.bind_eq_bind, Option.some_bind]
      constructor
      · intro
        exact ⟨hrowbounds.1, hrowbounds.2, hcb.1, hcb.2⟩
      · intro
        rfl

/-- C10: the out-of-bounds reference-pixel failure of `read_unw_stack`
occurs exactly when ref_row lies outside [-rows, rows-1] or ref_col outside
[-cols, cols-1] (numpy indexing semantics); for negative indices inside
those ranges the call succeeds and silently normalises by the wrap-around
pixel: it equals the call with ref_row + rows (resp. ref_col + cols), so
ref_row = -1 uses the last row. -/
theorem read_unw_stack_out_of_bounds (rows cols : Nat)
    (images : List (List (List ℚ))) (rr rc : ℤ)
    (himg : ∀ img ∈ images, img.length = rows ∧ ∀ ro ∈ img, ro.length = cols)
    (hne : images ≠ []) :
    ((read_unw_stack rows cols images rr rc).isSome ↔
      (-(rows : ℤ) ≤ rr ∧ rr < rows ∧ -(cols : ℤ) ≤ rc ∧ rc < cols)) ∧
    (-(rows : ℤ) ≤ rr → rr < 0 →
      read_unw_stack rows cols images rr rc =
        read_unw_stack rows cols images (rr + rows) rc) ∧
    (-(cols : ℤ) ≤ rc → rc < 0 →
      read_unw_stack rows cols images rr rc =
        read_unw_stack rows cols images rr (rc + cols)) := by
  refine ⟨?_, ?_, ?_⟩
  · have hform : read_unw_stack rows cols images rr rc =
        (images.mapM fun img => (do
          let refrow ← npIdx img rr
          let refval ← npIdx refrow rc
          pure (img.map fun ro => ro.map fun x => x - refval) :
            Option (List (List ℚ)))).bind
          fun layers => some ((List.range rows).map fun r => (List.range cols).map fun c =>
            layers.map fun layer => (layer.getD r []).getD c 0) := rfl
    have hsome_eq : (read_unw_stack rows cols images rr rc).isSome =
        (images.mapM fun img => (do
          let refrow ← npIdx img rr
          let refval ← npIdx refrow rc
          pure (img.map fun ro => ro.map fun x => x - refval) :
            Option (List (List ℚ)))).isSome := by
      rw [hform]
      cases images.mapM fun img => (do
          let refrow ← npIdx img rr
          let refval ← npIdx refrow rc
          pure (img.map fun ro => ro.map fun x => x - refval) :
            Option (List (List ℚ))) with
      | none => rfl
      | some layers => rfl
    rw [hsome_eq, mapM_option_isSome_iff]
    constructor
    · intro hall
      obtain ⟨img0, h0⟩ := List.exists_mem_of_ne_nil images hne
      exact (stack_layer_isSome rows cols rr rc img0 (himg img0 h0).1
        (himg img0 h0).2).mp (hall img0 h0)
    · intro hb img hi
      exact (stack_layer_isSome rows cols rr rc img (himg img hi).1
        (himg img hi).2).mpr hb
  · intro hge hneg
    unfold read_unw_stack
    rw [mapM_option_congr _ _ images fun img hi => ?_]
    have hil : img.length = rows := (himg img hi).1
    have hwrap : npIdx img rr = npIdx img (rr + rows) := by
      have h := npIdx_neg_wrap img rr hneg (by rw [hil]; exact hge)
      rw [hil] at h
      exact h
    show (do
        let refrow ← npIdx img rr
        let refval ← npIdx refrow rc
        pure (img.map fun ro => ro.map fun x => x - refval) :
          Option (List (List ℚ))) = _
    rw [hwrap]
  · intro hge hneg
    unfold read_unw_stack
    rw [mapM_option_congr _ _ images fun img hi => ?_]
    show (do
        let refrow ← npIdx img rr
        let refval ← npIdx refrow rc
        pure (img.map fun ro => ro.map fun x => x - refval) :
          Option (List (List ℚ))) = _
    cases hn : npIdx img rr with
    | none => simp only [hn, Option.bind_eq_bind, Option.none_bind]
    | some refrow =>
      have hrowlen : refrow.length = cols := (himg img hi).2 _ (npIdx_mem img rr refrow hn)
      have hwrap : npIdx refrow rc = npIdx refrow (rc + cols) := by
        have h := npIdx_neg_wrap refrow rc hneg (by rw [hrowlen]; exact hge)
        rw [hrowlen] at h
        exact h
      simp only [hn, Option.bind_eq_bind, Option.some_bind]
      rw [hwrap]

/-- Witness for C10 on a concrete 2x3 image with negative in-range
reference indices. -/
theorem read_unw_stack_out_of_bounds_witness :
    ((read_unw_stack 2 3 [[[1, 2, 3], [4, 5, 6]]] (-1) (-2)).isSome ↔
      (-(2 : ℤ) ≤ -1 ∧ (-1 : ℤ) < 2 ∧ -(3 : ℤ) ≤ -2 ∧ (-2 : ℤ) < 3)) ∧
    (-(2 : ℤ) ≤ -1 → (-1 : ℤ) < 0 →
      read_unw_stack 2 3 [[[1, 2, 3], [4, 5, 6]]] (-1) (-2) =
        read_unw_stack 2 3 [[[1, 2, 3], [4, 5, 6]]] (-1 + 2) (-2)) ∧
    (-(3 : ℤ) ≤ -2 → (-2 : ℤ) < 0 →
      read_unw_stack 2 3 [[[1, 2, 3], [4, 5, 6]]] (-1) (-2) =
        read_unw_stack 2 3 [[[1, 2, 3], [4, 5, 6]]] (-1) (-2 + 3)) := by
  have h := read_unw_stack_out_of_bounds 2 3 [[[1, 2, 3], [4, 5, 6]]] (-1) (-2)
    (by
      intro img hi
      simp only [List.mem_cons, List.not_mem_nil, or_false] at hi
      subst hi
      refine ⟨rfl, ?_⟩
      intro ro hro
      simp only [List.mem_cons, List.not_mem_nil, or_false] at hro
      rcases hro with rfl | rfl <;> rfl)
    (by simp)
  simpa using h

theorem getD_of_le {α : Type} (l : List α) (i : Nat) (d : α) (h : l.length ≤ i) :
    l.getD i d = d := by
  rw [List.getD_eq_getElem?_getD, List.getElem?_eq_none h]
  rfl

theorem scale_deformation_getD (phi : Mat) (i k : Nat) :
    ((scale_deformation phi).getD i []).getD k 0 =
      PHASE_TO_CM * (((phi.getD i []).getD k 0 : ℚ) : ℝ) := by
  by_cases hi : i < phi.length
  · have hmap : (scale_deformation phi).getD i [] =
        (phi.getD i []).map fun (x : ℚ) => PHASE_TO_CM * (x : ℝ) :=
      getD_map _ phi i [] [] hi
    rw [hmap]
    by_cases hk : k < (phi.getD i []).length
    · rw [getD_map _ _ k 0 0 hk]
    · rw [getD_of_le _ k _ (by rw [List.length_map]; omega),
        getD_of_le _ k _ (by omega)]
      simp
  · have hsl : (scale_deformation phi).length = phi.length := by
      simp [scale_deformation]
    rw [getD_of_le phi i [] (by omega), getD_of_le _ i [] (by omega)]
    simp

/-- C8: the deformation output of `run_inversion` equals the phase batch
scaled elementwise by the constant PHASE_TO_CM = 5.5465763 / (-4π), a
negative factor, and no other negation is applied between the solve and
the returned deformation: every deformation entry is exactly PHASE_TO_CM
times the corresponding phase entry. -/
theorem deformation_scaling (lstsq : List (List ℤ) → Mat → Mat) (rows cols : Nat)
    (images : List (List (List ℚ))) (D : List ℤ) (P : List (ℤ × ℤ)) (rr rc : ℤ)
    (h : (run_inversion lstsq rows cols images D P rr rc).isSome) :
    PHASE_TO_CM = 5.5465763 / (-4 * Real.pi) ∧
    PHASE_TO_CM < 0 ∧
    ∀ g phi defm v,
      run_inversion lstsq rows cols images D P rr rc = some (g, phi, defm, v) →
        defm = scale_deformation phi ∧
        ∀ i k, (defm.getD i []).getD k 0 =
          PHASE_TO_CM * (((phi.getD i []).getD k 0 : ℚ) : ℝ) := by
  refine ⟨rfl, ?_, ?_⟩
  · unfold PHASE_TO_CM SENTINEL_WAVELENGTH
    have h1 : (0 : ℝ) < 5.5465763 := by norm_num
    have h2 : (-4 : ℝ) * Real.pi < 0 := by nlinarith [Real.pi_pos]
    exact div_neg_of_pos_of_neg h1 h2
  · intro g phi defm v heq
    have hform : run_inversion lstsq rows cols images D P rr rc =
        (read_unw_stack rows cols images rr rc).bind fun unw_stack =>
          (build_B_matrix D P).bind fun B =>
            some (D,
              (invert_sbas lstsq (_prep_columns unw_stack) (find_time_diffs D) B).2,
              scale_deformation
                (invert_sbas lstsq (_prep_columns unw_stack) (find_time_diffs D) B).2,
              (invert_sbas lstsq (_prep_columns unw_stack) (find_time_diffs D) B).1) := rfl
    rw [hform] at heq
    cases hs : read_unw_stack rows cols images rr rc with
    | none =>
      rw [hs] at heq
      exact absurd heq (by simp)
    | some stack =>
      rw [hs] at heq
      cases hb : build_B_matrix D P with
      | none =>
        rw [hb] at heq
        exact absurd heq (by simp)
      | some Bm =>
        rw [hb] at heq
        simp only [Option.some_bind] at heq
        have htup := Option.some_inj.mp heq
        have hphi : (invert_sbas lstsq (_prep_columns stack) (find_time_diffs D) Bm).2 =
            phi := congrArg (fun t => t.2.1) htup
        have hdefm : scale_deformation
            (invert_sbas lstsq (_prep_columns stack) (find_time_diffs D) Bm).2 =
            defm := congrArg (fun t => t.2.2.1) htup
        have hds : defm = scale_deformation phi := by
          rw [← hdefm, hphi]
        refine ⟨hds, ?_⟩
        intro i k
        rw [hds]
        exact scale_deformation_getD phi i k

/-- Witness for C8 on a concrete single-pixel, single-igram inversion. -/
theorem deformation_scaling_witness :
    PHASE_TO_CM = 5.5465763 / (-4 * Real.pi) ∧
    PHASE_TO_CM < 0 ∧
    ∀ g phi defm v,
      run_inversion (fun _ _ => [[0]]) 1 1 [[[5]]] [0, 1] [(0, 1)] 0 0 =
        some (g, phi, defm, v) →
        defm = scale_deformation phi ∧
        ∀ i k, (defm.getD i []).getD k 0 =
          PHASE_TO_CM * (((phi.getD i []).getD k 0 : ℚ) : ℝ) :=
  deformation_scaling (fun _ _ => [[0]]) 1 1 [[[5]]] [0, 1] [(0, 1)] 0 0 rfl

theorem headD_eq_getD_zero {α : Type} (l : List α) (d : α) : l.headD d = l.getD 0 d := by
  cases l <;> rfl

theorem sum_map_range_const (n m : Nat) : ((List.range n).map fun _ => m).sum = n * m := by
  induction n with
  | zero => simp
  | succ n ih =>
    rw [List.range_succ, List.map_append, List.sum_append, ih]
    simp
    ring

theorem getD_flatten_const (ls : List (List ℚ)) (rows : Nat)
    (hl : ∀ l ∈ ls, l.length = rows) (c r : Nat) (hc : c < ls.length) (hr : r < rows) :
    ls.flatten.getD (c * rows + r) 0 = (ls.getD c []).getD r 0 := by
  induction ls generalizing c with
  | nil => simp at hc
  | cons l ls ih =>
    have hll : l.length = rows := hl l (List.mem_cons_self l ls)
    cases c with
    | zero =>
      simp only [Nat.zero_mul, Nat.zero_add, List.flatten_cons, List.getD_cons_zero]
      rw [List.getD_append _ _ 0 r (by omega)]
    | succ c =>
      have hidx : (c + 1) * rows + r = l.length + (c * rows + r) := by
        rw [hll]
        ring
      rw [List.flatten_cons, hidx, List.getD_append_right _ _ 0 _ (by omega),
        Nat.add_sub_cancel_left, List.getD_cons_succ]
      refine ih (fun x hx => hl x (List.mem_cons_of_mem _ hx)) c ?_
      simp only [List.length_cons] at hc
      omega

/-- C5 (amended): `run_inversion` flattens the (rows x cols) pixel grid
into a single pixel axis of size rows*cols (pixel (r, c) becomes column
c*rows + r of the batch), performs the single batched `invert_sbas` call on
the full batch, and returns the phase and deformation as 2-D
(time x rows*cols) arrays with the pixel axis still flattened; no reshape
back to a 3-D (time x rows x cols) layout takes place. -/
theorem run_inversion_flattened (lstsq : List (List ℤ) → Mat → Mat) (rows cols : Nat)
    (images : List (List (List ℚ))) (D : List ℤ) (P : List (ℤ × ℤ)) (rr rc : ℤ)
    (stack : List (List (List ℚ))) (Bm : List (List ℤ))
    (h0r : 0 < rows) (h0c : 0 < cols)
    (hstack : read_unw_stack rows cols images rr rc = some stack)
    (hBm : build_B_matrix D P = some Bm)
    (htd : 0 < (find_time_diffs D).length)
    (hVlen : (lstsq Bm (_prep_columns stack)).length = (find_time_diffs D).length)
    (hVrow : ∀ ro ∈ lstsq Bm (_prep_columns stack), ro.length = rows * cols) :
    (run_inversion lstsq rows cols images D P rr rc =
      some (D, (invert_sbas lstsq (_prep_columns stack) (find_time_diffs D) Bm).2,
        scale_deformation
          (invert_sbas lstsq (_prep_columns stack) (find_time_diffs D) Bm).2,
        (invert_sbas lstsq (_prep_columns stack) (find_time_diffs D) Bm).1)) ∧
    ((_prep_columns stack).length = images.length ∧
      ∀ ro ∈ _prep_columns stack, ro.length = rows * cols) ∧
    (∀ r, r < rows → ∀ c, c < cols → ∀ k, k < images.length →
      ((_prep_columns stack).getD k []).getD (c * rows + r) 0 =
        ((stack.getD r []).getD c []).getD k 0) ∧
    ((invert_sbas lstsq (_prep_columns stack) (find_time_diffs D) Bm).2.length =
        (find_time_diffs D).length + 1 ∧
      ∀ ro ∈ (invert_sbas lstsq (_prep_columns stack) (find_time_diffs D) Bm).2,
        ro.length = rows * cols) := by
  have hformRun : run_inversion lstsq rows cols images D P rr rc =
      (read_unw_stack rows cols images rr rc).bind fun unw_stack =>
        (build_B_matrix D P).bind fun B =>
          some (D,
            (invert_sbas lstsq (_prep_columns unw_stack) (find_time_diffs D) B).2,
            scale_deformation
              (invert_sbas lstsq (_prep_columns unw_stack) (find_time_diffs D) B).2,
            (invert_sbas lstsq (_prep_columns unw_stack) (find_time_diffs D) B).1) := rfl
  have hrun : run_inversion lstsq rows cols images D P rr rc =
      some (D, (invert_sbas lstsq (_prep_columns stack) (find_time_diffs D) Bm).2,
        scale_deformation
          (invert_sbas lstsq (_prep_columns stack) (find_time_diffs D) Bm).2,
        (invert_sbas lstsq (_prep_columns stack) (find_time_diffs D) Bm).1) := by
    rw [hformRun, hstack, hBm]
    rfl
  -- invert the stack construction
  have hformStack : read_unw_stack rows cols images rr rc =
      (images.mapM fun img => (do
        let refrow ← npIdx img rr
        let refval ← npIdx refrow rc
        pure (img.map fun ro => ro.map fun x => x - refval) :
          Option (List (List ℚ)))).bind
        fun layers => some ((List.range rows).map fun r => (List.range cols).map fun c =>
          layers.map fun layer => (layer.getD r []).getD c 0) := rfl
  rw [hformStack] at hstack
  rcases hm : images.mapM fun img => (do
      let refrow ← npIdx img rr
      let refval ← npIdx refrow rc
      pure (img.map fun ro => ro.map fun x => x - refval) :
        Option (List (List ℚ))) with - | layers
  · rw [hm] at hstack
    exact absurd hstack (by simp)
  rw [hm] at hstack
  simp only [Option.some_bind, Option.some_inj] at hstack
  have hlayerslen : layers.length = images.length := mapM_option_length _ _ _ hm
  have hslen : stack.length = rows := by
    rw [← hstack]
    simp
  have hs0 : stack.getD 0 [] =
      (List.range cols).map fun c => layers.map fun layer =>
        (layer.getD 0 []).getD c 0 := by
    rw [← hstack, getD_map_range rows _ [] 0 h0r]
  have hscols : (stack.headD []).length = cols := by
    rw [headD_eq_getD_zero, hs0]
    simp
  have hsnum : ((stack.headD []).headD []).length = images.length := by
    rw [headD_eq_getD_zero stack, hs0, headD_eq_getD_zero,
      getD_map_range cols _ [] 0 h0c]
    simp [hlayerslen]
  have hps : _prep_columns stack = (List.range images.length).map fun k =>
      (List.range cols).flatMap fun c =>
        (List.range rows).map fun r => ((stack.getD r []).getD c []).getD k 0 := by
    simp only [_prep_columns]
    rw [hslen, hscols, hsnum]
  have hprow : ∀ ro ∈ _prep_columns stack, ro.length = rows * cols := by
    intro ro hro
    rw [hps] at hro
    obtain ⟨k, -, rfl⟩ := List.mem_map.mp hro
    rw [List.length_flatMap]
    have hcong : List.map (List.length ∘ fun c =>
        (List.range rows).map fun r => ((stack.getD r []).getD c []).getD k 0)
        (List.range cols) = (List.range cols).map fun _ => rows := by
      refine List.map_congr_left ?_
      intro c _
      simp
    rw [hcong, sum_map_range_const]
    exact Nat.mul_comm cols rows
  refine ⟨hrun, ⟨by rw [hps]; simp, hprow⟩, ?_, ?_⟩
  · intro r hr c hc k hk
    rw [hps, getD_map_range images.length _ [] k hk, List.flatMap_def,
      getD_flatten_const _ rows ?_ c r (by simpa using hc) hr]
    · rw [getD_map_range cols _ [] c hc, getD_map_range rows _ 0 r hr]
    · intro l hl
      obtain ⟨c2, -, rfl⟩ := List.mem_map.mp hl
      simp
  · -- phase batch shape: one batched solve, flattened pixel axis kept
    have hVdef : (invert_sbas lstsq (_prep_columns stack) (find_time_diffs D) Bm).1 =
        lstsq Bm (_prep_columns stack) := rfl
    have hphidef : (invert_sbas lstsq (_prep_columns stack) (find_time_diffs D) Bm).2 =
        List.replicate
          ((cumsumRows (List.zipWith (fun t ro => ro.map fun x => (t : ℚ) * x)
            (find_time_diffs D) (lstsq Bm (_prep_columns stack)))).headD []).length 0 ::
          cumsumRows (List.zipWith (fun t ro => ro.map fun x => (t : ℚ) * x)
            (find_time_diffs D) (lstsq Bm (_prep_columns stack))) := rfl
    have hphidlen : (List.zipWith (fun t ro => ro.map fun x => (t : ℚ) * x)
        (find_time_diffs D) (lstsq Bm (_prep_columns stack))).length =
        (find_time_diffs D).length := by
      rw [List.length_zipWith, hVlen]
      simp
    have hphidwidth : ∀ ro ∈ List.zipWith (fun t ro => ro.map fun x => (t : ℚ) * x)
        (find_time_diffs D) (lstsq Bm (_prep_columns stack)),
        ro.length = rows * cols := by
      intro ro hro
      obtain ⟨n, hn, hv⟩ := List.mem_iff_getElem.mp hro
      rw [List.length_zipWith] at hn
      rw [← List.getD_eq_getElem _ [] (by rw [List.length_zipWith]; omega)] at hv
      rw [getD_zipWith _ _ _ n 0 [] [] (by omega) (by omega)] at hv
      rw [← hv, List.length_map]
      exact hVrow _ (getD_mem _ n [] (by omega))
    have hcwidth := cumsumRows_row_length (rows * cols) _ hphidwidth
    have hheadwidth : ((cumsumRows (List.zipWith (fun t ro => ro.map fun x => (t : ℚ) * x)
        (find_time_diffs D) (lstsq Bm (_prep_columns stack)))).headD []).length =
        rows * cols := by
      rw [headD_eq_getD_zero]
      refine hcwidth _ (getD_mem _ 0 [] ?_)
      rw [cumsumRows_length, hphidlen]
      omega
    constructor
    · rw [hphidef]
      simp [cumsumRows_length, hphidlen]
    · intro ro hro
      rw [hphidef] at hro
      rcases List.mem_cons.mp hro with rfl | hmem
      · rw [List.length_replicate, hheadwidth]
      · exact hcwidth ro hmem

/-- C5 counterexample: the claimed reshape back to a 3-D
(time x rows x cols) array does not happen.  On a 2x3 pixel grid with one
igram, with a solver that satisfies the least-squares specification at the
system actually solved, `run_inversion` returns a phase whose time slices
are flat pixel vectors of length rows*cols = 6; in a (time x rows x cols)
layout every row of each time slice would have width cols = 3, and no row
of the returned phase has length 3. -/
theorem run_inversion_not_reshaped :
    IsLstsqSol [[1]] [[0, 3, 1, 4, 2, 5]]
      ((fun _ _ => [[0, 3, 1, 4, 2, 5]]) ([[1]] : List (List ℤ))
        ([[0, 3, 1, 4, 2, 5]] : Mat)) ∧
    (run_inversion (fun _ _ => [[0, 3, 1, 4, 2, 5]]) 2 3 [[[0, 1, 2], [3, 4, 5]]]
        [0, 1] [(0, 1)] 0 0).map (fun o => o.2.1) =
      some [[0, 0, 0, 0, 0, 0], [0, 3, 1, 4, 2, 5]] ∧
    (∀ ro ∈ [[(0 : ℚ), 0, 0, 0, 0, 0], [0, 3, 1, 4, 2, 5]], ro.length = 2 * 3) ∧
    ¬ ∀ ro ∈ [[(0 : ℚ), 0, 0, 0, 0, 0], [0, 3, 1, 4, 2, 5]], ro.length = 3 := by
  refine ⟨⟨rfl, ?_, ?_⟩, ?_, by decide, by decide⟩
  · intro ro hro
    simp only [List.mem_cons, List.not_mem_nil, or_false] at hro
    subst hro
    rfl
  · intro k hk w hw
    have hk6 : k < 6 := hk
    have h0 : residSq [[1]] (colOf [[0, 3, 1, 4, 2, 5]] k)
        (colOf [[0, 3, 1, 4, 2, 5]] k) = 0 := by
      interval_cases k <;> norm_num [residSq, mulVec, dotRow, colOf]
    rw [h0]
    exact residSq_nonneg _ _ _
  · norm_num [run_inversion, read_unw_stack, npIdx, List.mapM.loop,
      List.range_succ, _prep_columns, invert_sbas, build_B_matrix, build_A_matrix,
      buildARow, buildBRow, find_time_diffs, cumsumRows, cumsumFrom, addRows,
      List.replicate_succ]

/-- Witness for the amended C5 on the concrete 2x3 grid. -/
theorem run_inversion_flattened_witness :
    (run_inversion (fun _ _ => [[0, 3, 1, 4, 2, 5]]) 2 3 [[[0, 1, 2], [3, 4, 5]]]
        [0, 1] [(0, 1)] 0 0 =
      some ([0, 1],
        (invert_sbas (fun _ _ => [[0, 3, 1, 4, 2, 5]])
          (_prep_columns [[[0], [1], [2]], [[3], [4], [5]]])
          (find_time_diffs [0, 1]) [[1]]).2,
        scale_deformation (invert_sbas (fun _ _ => [[0, 3, 1, 4, 2, 5]])
          (_prep_columns [[[0], [1], [2]], [[3], [4], [5]]])
          (find_time_diffs [0, 1]) [[1]]).2,
        (invert_sbas (fun _ _ => [[0, 3, 1, 4, 2, 5]])
          (_prep_columns [[[0], [1], [2]], [[3], [4], [5]]])
          (find_time_diffs [0, 1]) [[1]]).1)) ∧
    ((_prep_columns [[[0], [1], [2]], [[3], [4], [5]]]).length = 1 ∧
      ∀ ro ∈ _prep_columns [[[0], [1], [2]], [[3], [4], [5]]], ro.length = 2 * 3) ∧
    (∀ r, r < 2 → ∀ c, c < 3 → ∀ k, k < 1 →
      ((_prep_columns [[[0], [1], [2]], [[3], [4], [5]]]).getD k []).getD
          (c * 2 + r) 0 =
        ((([[[0], [1], [2]], [[3], [4], [5]]] :
          List (List (List ℚ))).getD r []).getD c []).getD k 0) ∧
    ((invert_sbas (fun _ _ => [[0, 3, 1, 4, 2, 5]])
        (_prep_columns [[[0], [1], [2]], [[3], [4], [5]]])
        (find_time_diffs [0, 1]) [[1]]).2.length =
        (find_time_diffs [0, 1]).length + 1 ∧
      ∀ ro ∈ (invert_sbas (fun _ _ => [[0, 3, 1, 4, 2, 5]])
          (_prep_columns [[[0], [1], [2]], [[3], [4], [5]]])
          (find_time_diffs [0, 1]) [[1]]).2, ro.length = 2 * 3) := by
  have h := run_inversion_flattened (fun _ _ => [[0, 3, 1, 4, 2, 5]]) 2 3
    [[[0, 1, 2], [3, 4, 5]]] [0, 1] [(0, 1)] 0 0
    [[[0], [1], [2]], [[3], [4], [5]]] [[1]]
    (by decide) (by decide)
    (by norm_num [read_unw_stack, npIdx, List.mapM.loop, List.range_succ])
    (by decide) (by decide) rfl (by decide)
  simpa using h
